import Mathlib

/-!
# pgx wire-protocol message builder (`messages.go`)

A shallow embedding of the outbound message builder `WriteBuf`, of the startup
message encoder `startupMessage.Bytes`, of the message type constants, of the server
error record `PgError` and of the helpers they use from Go's `encoding/binary`, followed
by the properties proved about them.  The error/notice decoder that fills a `PgError` is
not in `messages.go`; its model follows the description of the wire format.

Conventions of the embedding:

* a Go `byte` is a `Fin 256`; a `[]byte` and a Go `string` are lists of bytes;
* Go `int` offsets into a buffer (`sizeIdx`, `sizePosition`, `len(buf)`) are natural
  numbers; fixed-width integer arguments are `Nat` (unsigned) or `Int` (signed) and
  every conversion `uintN(x)` is an explicit reduction modulo `2^N`;
* an operation that can panic on an out-of-range slice returns `Option`, `none`
  being the panic.  Spare capacity past `len(buf)` is not modelled: a slice
  expression reaching past `len(buf)` is treated as out of range.
-/

namespace Pgx

/-! ## Bytes and integer conversions -/

/-- A Go `byte`. -/
abbrev Byte := Fin 256

/-- A Go `string`: an immutable sequence of bytes. -/
abbrev GoString := List Byte

/-- The Go conversion `byte(v)` of an unsigned value: the low eight bits. -/
def byte (v : Nat) : Byte := ⟨v % 256, Nat.mod_lt v (by decide)⟩

/-- The Go conversion `uint16(n)` of a signed or wider value. -/
def uint16 (n : Int) : Nat := (n % 65536).toNat

/-- The Go conversion `uint32(n)` of a signed or wider value. -/
def uint32 (n : Int) : Nat := (n % 4294967296).toNat

/-- The Go conversion `uint64(n)` of a signed value. -/
def uint64 (n : Int) : Nat := (n % 18446744073709551616).toNat

/-- The constant `protocolVersionNumber` (protocol 3.0). -/
def protocolVersionNumber : Nat := 196608

/-! ## `encoding/binary`: big-endian stores -/

/-- The two bytes `binary.BigEndian.PutUint16` stores, in order:
`b[0] = byte(v >> 8)`, `b[1] = byte(v)`. -/
def bigEndian16 (v : Nat) : List Byte := [byte (v >>> 8), byte v]

/-- The four bytes `binary.BigEndian.PutUint32` stores, in order. -/
def bigEndian32 (v : Nat) : List Byte :=
  [byte (v >>> 24), byte (v >>> 16), byte (v >>> 8), byte v]

/-- The eight bytes `binary.BigEndian.PutUint64` stores, in order. -/
def bigEndian64 (v : Nat) : List Byte :=
  [byte (v >>> 56), byte (v >>> 48), byte (v >>> 40), byte (v >>> 32),
   byte (v >>> 24), byte (v >>> 16), byte (v >>> 8), byte v]

/-- The call `binary.BigEndian.PutUint32(buf[off:...], v)` on a slice of `buf` that starts
at offset `off`: the call panics unless four bytes are available there, and
otherwise stores `b[0]`, `b[1]`, `b[2]`, `b[3]` one after the other. -/
def PutUint32 (buf : List Byte) (off : Nat) (v : Nat) : Option (List Byte) :=
  if off + 4 ≤ buf.length then
    some ((((buf.set off (byte (v >>> 24))).set (off + 1) (byte (v >>> 16))).set
      (off + 2) (byte (v >>> 8))).set (off + 3) (byte v))
  else none

/-! ## The output buffer `WriteBuf` -/

/-- The scratch array `convBuf [8]byte` of a `WriteBuf`. -/
structure ConvBuf where
  b0 : Byte
  b1 : Byte
  b2 : Byte
  b3 : Byte
  b4 : Byte
  b5 : Byte
  b6 : Byte
  b7 : Byte
  deriving DecidableEq, Repr

/-- The zero value of `[8]byte`. -/
def ConvBuf.zero : ConvBuf := ⟨0, 0, 0, 0, 0, 0, 0, 0⟩

/-- The call `binary.BigEndian.PutUint16(wb.convBuf[:2], n)`. -/
def ConvBuf.put16 (cb : ConvBuf) (n : Nat) : ConvBuf :=
  { cb with b0 := byte (n >>> 8), b1 := byte n }

/-- The call `binary.BigEndian.PutUint32(wb.convBuf[:4], n)`. -/
def ConvBuf.put32 (cb : ConvBuf) (n : Nat) : ConvBuf :=
  { cb with b0 := byte (n >>> 24), b1 := byte (n >>> 16), b2 := byte (n >>> 8), b3 := byte n }

/-- The call `binary.BigEndian.PutUint64(wb.convBuf[:8], n)`. -/
def ConvBuf.put64 (_cb : ConvBuf) (n : Nat) : ConvBuf :=
  { b0 := byte (n >>> 56), b1 := byte (n >>> 48), b2 := byte (n >>> 40), b3 := byte (n >>> 32),
    b4 := byte (n >>> 24), b5 := byte (n >>> 16), b6 := byte (n >>> 8), b7 := byte n }

/-- The slice `wb.convBuf[:2]`. -/
def ConvBuf.first2 (cb : ConvBuf) : List Byte := [cb.b0, cb.b1]

/-- The slice `wb.convBuf[:4]`. -/
def ConvBuf.first4 (cb : ConvBuf) : List Byte := [cb.b0, cb.b1, cb.b2, cb.b3]

/-- The slice `wb.convBuf[:8]`. -/
def ConvBuf.first8 (cb : ConvBuf) : List Byte :=
  [cb.b0, cb.b1, cb.b2, cb.b3, cb.b4, cb.b5, cb.b6, cb.b7]

/-- The part of a connection `Conn` that `newWriteBuf` reads: its reusable buffer `wbuf`. -/
structure Conn where
  wbuf : List Byte
  deriving DecidableEq, Repr

/-- The struct `WriteBuf` (its back pointer `conn` is never read by the builder and is
left out). -/
structure WriteBuf where
  buf : List Byte
  convBuf : ConvBuf
  sizeIdx : Nat
  deriving DecidableEq, Repr

/-- A Go `error` value; `none` is `nil`. -/
abbrev GoError := Option String

/-- The constructor `newWriteBuf(c, t)`: `append(c.wbuf[0:0], t, 0, 0, 0, 0)` with
`sizeIdx: 1`. -/
def newWriteBuf (c : Conn) (t : Byte) : WriteBuf :=
  { buf := c.wbuf.take 0 ++ [t, 0, 0, 0, 0], convBuf := ConvBuf.zero, sizeIdx := 1 }

/-- The method `closeMsg`: store `uint32(len(wb.buf) - wb.sizeIdx)` big-endian into
`wb.buf[wb.sizeIdx : wb.sizeIdx+4]`. -/
def closeMsg (wb : WriteBuf) : Option WriteBuf :=
  (PutUint32 wb.buf wb.sizeIdx (uint32 ((wb.buf.length : Int) - (wb.sizeIdx : Int)))).map
    (fun b => { wb with buf := b })

/-- The method `startMsg(t)`: close the open message, append the tag and four zero
bytes, and point `sizeIdx` at those four bytes. -/
def startMsg (wb : WriteBuf) (t : Byte) : Option WriteBuf :=
  (closeMsg wb).map (fun wb1 =>
    let buf := wb1.buf ++ [t, 0, 0, 0, 0]
    { wb1 with buf := buf, sizeIdx := buf.length - 4 })

/-- The method `reserveSize`: append four zero bytes and return the old length. -/
def reserveSize (wb : WriteBuf) : WriteBuf × Nat :=
  ({ wb with buf := wb.buf ++ [0, 0, 0, 0] }, wb.buf.length)

/-- The method `setComputedSize(sizePosition)`: store
`uint32(len(wb.buf) - sizePosition - 4)` big-endian at `wb.buf[sizePosition:]`. -/
def setComputedSize (wb : WriteBuf) (sizePosition : Nat) : Option WriteBuf :=
  (PutUint32 wb.buf sizePosition
    (uint32 ((wb.buf.length : Int) - (sizePosition : Int) - 4))).map
    (fun b => { wb with buf := b })

/-- The method `setSize(sizePosition, size)`: store `uint32(size)` big-endian at
`wb.buf[sizePosition:]`. -/
def setSize (wb : WriteBuf) (sizePosition : Nat) (size : Int) : Option WriteBuf :=
  (PutUint32 wb.buf sizePosition (uint32 size)).map (fun b => { wb with buf := b })

/-- The method `WriteByte(b)`. -/
def WriteByte (wb : WriteBuf) (b : Byte) : WriteBuf :=
  { wb with buf := wb.buf ++ [b] }

/-- The method `WriteCString(s)`: the bytes of `s`, then a zero byte. -/
def WriteCString (wb : WriteBuf) (s : GoString) : WriteBuf :=
  { wb with buf := (wb.buf ++ s) ++ [0] }

/-- The method `WriteUint16(n)`, with its results `(2, nil)`. -/
def WriteUint16 (wb : WriteBuf) (n : Nat) : WriteBuf × Nat × GoError :=
  let cb := wb.convBuf.put16 n
  ({ wb with convBuf := cb, buf := wb.buf ++ cb.first2 }, 2, none)

/-- The method `WriteInt16(n)`: `wb.WriteUint16(uint16(n))`, results dropped. -/
def WriteInt16 (wb : WriteBuf) (n : Int) : WriteBuf :=
  (WriteUint16 wb (uint16 n)).1

/-- The method `WriteUint32(n)`, with its results `(4, nil)`. -/
def WriteUint32 (wb : WriteBuf) (n : Nat) : WriteBuf × Nat × GoError :=
  let cb := wb.convBuf.put32 n
  ({ wb with convBuf := cb, buf := wb.buf ++ cb.first4 }, 4, none)

/-- The method `WriteInt32(n)`: `wb.WriteUint32(uint32(n))`, results dropped. -/
def WriteInt32 (wb : WriteBuf) (n : Int) : WriteBuf :=
  (WriteUint32 wb (uint32 n)).1

/-- The method `WriteUint64(n)`, with its results `(8, nil)`. -/
def WriteUint64 (wb : WriteBuf) (n : Nat) : WriteBuf × Nat × GoError :=
  let cb := wb.convBuf.put64 n
  ({ wb with convBuf := cb, buf := wb.buf ++ cb.first8 }, 8, none)

/-- The method `WriteInt64(n)`: `wb.WriteUint64(uint64(n))`, results dropped. -/
def WriteInt64 (wb : WriteBuf) (n : Int) : WriteBuf :=
  (WriteUint64 wb (uint64 n)).1

/-- The method `WriteBytes(b)`. -/
def WriteBytes (wb : WriteBuf) (b : List Byte) : WriteBuf :=
  { wb with buf := wb.buf ++ b }

/-- The method `Write(b)`, with its results `(len(b), nil)`. -/
def Write (wb : WriteBuf) (b : List Byte) : WriteBuf × Nat × GoError :=
  ({ wb with buf := wb.buf ++ b }, b.length, none)

/-- One append operation of the builder, with its argument. -/
inductive AppendOp where
  | WriteByte (b : Byte)
  | WriteCString (s : GoString)
  | WriteInt16 (n : Int)
  | WriteUint16 (n : Nat)
  | WriteInt32 (n : Int)
  | WriteUint32 (n : Nat)
  | WriteInt64 (n : Int)
  | WriteUint64 (n : Nat)
  | WriteBytes (b : List Byte)
  | Write (b : List Byte)
  deriving DecidableEq, Repr

/-- The buffer state after the call of one append operation (results of the call, if
any, dropped). -/
def AppendOp.run (wb : WriteBuf) : AppendOp → WriteBuf
  | .WriteByte b => Pgx.WriteByte wb b
  | .WriteCString s => Pgx.WriteCString wb s
  | .WriteInt16 n => Pgx.WriteInt16 wb n
  | .WriteUint16 n => (Pgx.WriteUint16 wb n).1
  | .WriteInt32 n => Pgx.WriteInt32 wb n
  | .WriteUint32 n => (Pgx.WriteUint32 wb n).1
  | .WriteInt64 n => Pgx.WriteInt64 wb n
  | .WriteUint64 n => (Pgx.WriteUint64 wb n).1
  | .WriteBytes b => Pgx.WriteBytes wb b
  | .Write b => (Pgx.Write wb b).1

/-- The buffer state after a sequence of append operations, called in order. -/
def runOps (wb : WriteBuf) (ops : List AppendOp) : WriteBuf :=
  ops.foldl AppendOp.run wb

/-- One message of a batch: the tag given to `newWriteBuf` or `startMsg` and the append
operations issued while that message is open. -/
abbrev Msg := Byte × List AppendOp

/-- The calls `startMsg(t); ops...` for each further message of a batch, in order. -/
def runMsgs : WriteBuf → List Msg → Option WriteBuf
  | wb, [] => some wb
  | wb, m :: ms => (startMsg wb m.1).bind (fun wb1 => runMsgs (runOps wb1 m.2) ms)

/-- A whole batch: `newWriteBuf(c, t1); ops1...; startMsg(t2); ops2...; ...; closeMsg()`,
with no `closeMsg` except the last. -/
def runBatch (c : Conn) (first : Msg) (more : List Msg) : Option WriteBuf :=
  (runMsgs (runOps (newWriteBuf c first.1) first.2) more).bind closeMsg

/-! ## The startup message -/

/-- The struct `startupMessage`: the map `options`, given by the list of its entries
(in a Go map the keys are pairwise distinct; no property below depends on it). -/
structure startupMessage where
  options : List (GoString × GoString)
  deriving DecidableEq, Repr

/-- The constructor `newStartupMessage`: an empty option map. -/
def newStartupMessage : startupMessage := { options := [] }

/-- The body of the `range` loop of `Bytes` for one entry. -/
def startupMessage.appendOption (buf : List Byte) (kv : GoString × GoString) : List Byte :=
  (((buf ++ kv.1) ++ [0]) ++ kv.2) ++ [0]

/-- The method `Bytes` when `range s.options` visits the entries in the given order. -/
def startupMessage.BytesIn (order : List (GoString × GoString)) : Option (List Byte) :=
  (PutUint32 (List.replicate 8 0) 4 (uint32 protocolVersionNumber)).bind (fun buf0 =>
    let buf1 := order.foldl startupMessage.appendOption buf0
    let buf2 := buf1 ++ [0]
    PutUint32 buf2 0 (uint32 buf2.length))

/-- The method `Bytes`: Go leaves the order of `range` over a map unspecified, so
`out` is a possible result when some order that visits every entry exactly once
produces it. -/
def startupMessage.Bytes (s : startupMessage) (out : List Byte) : Prop :=
  ∃ order, List.Perm order s.options ∧ startupMessage.BytesIn order = some out

/-! ## Reference notions used to state the properties

These follow the wording of the wire-format description, not the code. -/

/-- Big-endian encoding of `n` on `w` bytes, most significant byte first
(byte `i` is `n / 256^(w-1-i)` modulo 256). -/
def beEncode : Nat → Nat → List Byte
  | 0, _ => []
  | w + 1, n => byte (n / 256 ^ w) :: beEncode w n

/-- The unsigned value of a byte sequence read most significant byte first:
the sum of `byte_i * 256^(width-1-i)`. -/
def beValue : List Byte → Nat
  | [] => 0
  | b :: bs => b.val * 256 ^ bs.length + beValue bs

/-- The signed (two's complement) value of a byte sequence read most significant
byte first. -/
def beSigned (bs : List Byte) : Int :=
  if beValue bs < 2 ^ (8 * bs.length - 1) then (beValue bs : Int)
  else (beValue bs : Int) - 2 ^ (8 * bs.length)

/-- The bytes an append operation is documented to contribute to the payload: the byte,
the text and a zero byte, the big-endian two's complement encoding of the integer (a
signed `n` is taken modulo `2^16`, `2^32`, `2^64`), or the raw bytes. -/
def AppendOp.appended : AppendOp → List Byte
  | .WriteByte b => [b]
  | .WriteCString s => s ++ [0]
  | .WriteInt16 n => beEncode 2 (n % 65536).toNat
  | .WriteUint16 n => beEncode 2 n
  | .WriteInt32 n => beEncode 4 (n % 4294967296).toNat
  | .WriteUint32 n => beEncode 4 n
  | .WriteInt64 n => beEncode 8 (n % 18446744073709551616).toNat
  | .WriteUint64 n => beEncode 8 n
  | .WriteBytes b => b
  | .Write b => b

/-- The payload a sequence of append operations is documented to produce. -/
def payloadOf (ops : List AppendOp) : List Byte :=
  (ops.map AppendOp.appended).flatten

/-- A tagged frame on the wire: the tag, the four-byte length field, the payload. -/
def frame (t : Byte) (payload : List Byte) : List Byte :=
  [t] ++ beEncode 4 (4 + payload.length) ++ payload

/-- Reading a buffer back as a sequence of tagged frames, at most `fuel` of them: each
frame is a tag byte, a four-byte big-endian length that counts itself and the payload,
and the payload.  `none` when a length field is below four or runs past the end. -/
def splitFramesAux : Nat → List Byte → Option (List (Byte × List Byte))
  | _, [] => some []
  | 0, _ :: _ => none
  | fuel + 1, t :: rest =>
    let len := beValue (rest.take 4)
    if 4 ≤ len ∧ len ≤ rest.length then
      (splitFramesAux fuel (rest.drop len)).map (fun fs => (t, (rest.take len).drop 4) :: fs)
    else none

/-- Reading a buffer back as a sequence of tagged frames (tag, payload). -/
def splitFrames (buf : List Byte) : Option (List (Byte × List Byte)) :=
  splitFramesAux buf.length buf

/-- The frames a batch of messages is documented to put on the wire. -/
def framesOf (msgs : List Msg) : List Byte :=
  (msgs.map (fun m => frame m.1 (payloadOf m.2))).flatten

/-- A call only appends: the buffer before is an initial segment of the buffer after, the
length does not decrease, and the recorded length-slot offset is the same. -/
def OnlyAppends (before after : WriteBuf) : Prop :=
  before.buf <+: after.buf ∧ before.buf.length ≤ after.buf.length ∧
    after.sizeIdx = before.sizeIdx

/-- Every byte outside the four-byte slot at `p` is the same in both buffers. -/
def SameOutsideSlot (p : Nat) (before after : List Byte) : Prop :=
  ∀ i, i < p ∨ p + 4 ≤ i → after[i]? = before[i]?

/-- The four bytes of the slot at `p`. -/
def slotAt (p : Nat) (buf : List Byte) : List Byte := (buf.drop p).take 4

/-- The bytes of an ASCII text. -/
def ascii (s : String) : GoString := s.toList.map (fun c => byte c.toNat)

/-- The option part of a startup message for a given order of the entries: for each
entry the key, a zero byte, the value, a zero byte. -/
def optionBytes (order : List (GoString × GoString)) : List Byte :=
  (order.map (fun kv => kv.1 ++ [0] ++ kv.2 ++ [0])).flatten

/-- The sum over all options of `len(key) + len(value) + 2`. -/
def optionsSize (options : List (GoString × GoString)) : Nat :=
  (options.map (fun kv => kv.1.length + kv.2.length + 2)).sum

/-- The options `{"user": "alice", "database": "test"}`. -/
def userAliceDatabaseTest : startupMessage :=
  { options := [(ascii "user", ascii "alice"), (ascii "database", ascii "test")] }

/-- An option map with a single entry whose key is 4294967285 bytes long and whose value
is empty. -/
def hugeOptions : startupMessage :=
  { options := [(List.replicate 4294967285 97, [])] }

/-- A payload of 4294967292 zero bytes: with the four bytes of the length field it
measures `2^32` bytes. -/
def hugePayload : List Byte := List.replicate 4294967292 0

/-- A connection whose reusable buffer still holds two bytes of an earlier batch. -/
def sampleConn : Conn := { wbuf := [7, 7] }

/-- A short sequence of append operations: a text, a negative 32-bit integer and an
unsigned 16-bit integer. -/
def sampleOps : List AppendOp :=
  [.WriteCString (ascii "ab"), .WriteInt32 (-1), .WriteUint16 300]

/-- The builder after `newWriteBuf(sampleConn, 'Q')` and the operations `sampleOps`. -/
def sampleBuf : WriteBuf := runOps (newWriteBuf sampleConn 81) sampleOps

/-- One of the two byte sequences `Bytes` can return for `userAliceDatabaseTest`. -/
def userAliceBytes : List Byte :=
  [0, 0, 0, 34] ++ [0, 3, 0, 0] ++ ascii "user\x00alice\x00database\x00test\x00" ++ [0]

/-! ## Message type constants -/

/-- The constant `backendKeyData`. -/
def backendKeyData : Char := 'K'

/-- The constant `authenticationX`. -/
def authenticationX : Char := 'R'

/-- The constant `readyForQuery`. -/
def readyForQuery : Char := 'Z'

/-- The constant `rowDescription`. -/
def rowDescription : Char := 'T'

/-- The constant `dataRow`. -/
def dataRow : Char := 'D'

/-- The constant `commandComplete`. -/
def commandComplete : Char := 'C'

/-- The constant `errorResponse`. -/
def errorResponse : Char := 'E'

/-- The constant `noticeResponse`. -/
def noticeResponse : Char := 'N'

/-- The constant `parseComplete`. -/
def parseComplete : Char := '1'

/-- The constant `parameterDescription`. -/
def parameterDescription : Char := 't'

/-- The constant `bindComplete`. -/
def bindComplete : Char := '2'

/-- The constant `notificationResponse`. -/
def notificationResponse : Char := 'A'

/-- The constant `emptyQueryResponse`. -/
def emptyQueryResponse : Char := 'I'

/-- The constant `noData`. -/
def noData : Char := 'n'

/-- The constant `closeComplete`. -/
def closeComplete : Char := '3'

/-- The constant `flush`. -/
def flush : Char := 'H'

/-- The constant `copyInResponse`. -/
def copyInResponse : Char := 'G'

/-- The constant `copyData`. -/
def copyData : Char := 'd'

/-- The constant `copyFail`. -/
def copyFail : Char := 'f'

/-- The constant `copyDone`. -/
def copyDone : Char := 'c'

/-- The twenty message type constants, in the order of their declaration. -/
def messageTypes : List Char :=
  [backendKeyData, authenticationX, readyForQuery, rowDescription, dataRow, commandComplete,
   errorResponse, noticeResponse, parseComplete, parameterDescription, bindComplete,
   notificationResponse, emptyQueryResponse, noData, closeComplete, flush, copyInResponse,
   copyData, copyFail, copyDone]

/-- The message kinds a tag byte selects: the constants whose value is that byte. -/
def kindsOfTag (tag : Byte) : List Char :=
  messageTypes.filter (fun k => k.toNat = tag.val)

/-! ## Server errors -/

/-- The struct `PgError`; its `int32` fields are integers. -/
structure PgError where
  Severity : GoString
  Code : GoString
  Message : GoString
  Detail : GoString
  Hint : GoString
  Position : Int
  InternalPosition : Int
  InternalQuery : GoString
  Where : GoString
  SchemaName : GoString
  TableName : GoString
  ColumnName : GoString
  DataTypeName : GoString
  ConstraintName : GoString
  File : GoString
  Line : Int
  Routine : GoString
  deriving DecidableEq, Repr

/-- The method `Error`:
`pe.Severity + ": " + pe.Message + " (SQLSTATE " + pe.Code + ")"`. -/
def PgError.Error (pe : PgError) : GoString :=
  pe.Severity ++ ascii ": " ++ pe.Message ++ ascii " (SQLSTATE " ++ pe.Code ++ ascii ")"

/-- The zero value of `PgError`. -/
def PgError.zero : PgError :=
  { Severity := [], Code := [], Message := [], Detail := [], Hint := [], Position := 0,
    InternalPosition := 0, InternalQuery := [], Where := [], SchemaName := [],
    TableName := [], ColumnName := [], DataTypeName := [], ConstraintName := [], File := [],
    Line := 0, Routine := [] }

/-- Reading one null-terminated text: the bytes before the first zero byte and the bytes
after it; `none` when there is no zero byte. -/
def readCString : List Byte → Option (GoString × List Byte)
  | [] => none
  | b :: rest =>
    if b = 0 then some ([], rest)
    else (readCString rest).map (fun r => (b :: r.1, r.2))

/-- The byte of a field code letter. -/
def fieldCode (c : Char) : Byte := byte c.toNat

/-- The field codes of the code table: S, C, M, D, H, P, p, q, W, s, t, c, d, n, F, L, R. -/
def knownFieldCodes : List Byte :=
  [fieldCode 'S', fieldCode 'C', fieldCode 'M', fieldCode 'D', fieldCode 'H', fieldCode 'P',
   fieldCode 'p', fieldCode 'q', fieldCode 'W', fieldCode 's', fieldCode 't', fieldCode 'c',
   fieldCode 'd', fieldCode 'n', fieldCode 'F', fieldCode 'L', fieldCode 'R']

/-- Modelled from the spec: the code table of the error/notice decoder, which is not among
the source files.  One entry sets the record attribute of its field code; the
numeric attributes (position, internal position, line) are decoded from their text by
`parseInt32`; an unknown code leaves the record as it is. -/
def PgError.setField (parseInt32 : GoString → Int) (pe : PgError) (code : Byte)
    (text : GoString) : PgError :=
  if code = fieldCode 'S' then { pe with Severity := text }
  else if code = fieldCode 'C' then { pe with Code := text }
  else if code = fieldCode 'M' then { pe with Message := text }
  else if code = fieldCode 'D' then { pe with Detail := text }
  else if code = fieldCode 'H' then { pe with Hint := text }
  else if code = fieldCode 'P' then { pe with Position := parseInt32 text }
  else if code = fieldCode 'p' then { pe with InternalPosition := parseInt32 text }
  else if code = fieldCode 'q' then { pe with InternalQuery := text }
  else if code = fieldCode 'W' then { pe with Where := text }
  else if code = fieldCode 's' then { pe with SchemaName := text }
  else if code = fieldCode 't' then { pe with TableName := text }
  else if code = fieldCode 'c' then { pe with ColumnName := text }
  else if code = fieldCode 'd' then { pe with DataTypeName := text }
  else if code = fieldCode 'n' then { pe with ConstraintName := text }
  else if code = fieldCode 'F' then { pe with File := text }
  else if code = fieldCode 'L' then { pe with Line := parseInt32 text }
  else if code = fieldCode 'R' then { pe with Routine := text }
  else pe

/-- Modelled from the spec: the sequential scan of the error/notice decoder, which is not
among the source files, over at most `fuel` entries.  A zero field code ends the scan and
what follows it is not inspected; a payload that ends before the zero field code, or in
the middle of a text, is a decode failure (`none`). -/
def decodeErrorAux (parseInt32 : GoString → Int) : Nat → List Byte → PgError → Option PgError
  | 0, _, _ => none
  | _ + 1, [], _ => none
  | fuel + 1, code :: rest, pe =>
    if code = 0 then some pe
    else
      match readCString rest with
      | none => none
      | some (text, rest1) => decodeErrorAux parseInt32 fuel rest1 (pe.setField parseInt32 code text)

/-- Modelled from the spec: the error/notice decoder, which is not among the source files;
it fills a fresh record from the payload `[repeated: byte fieldCode, cstring text][byte 0]`.
The fuel is the payload length, which no scan exceeds. -/
def decodeError (parseInt32 : GoString → Int) (payload : List Byte) : Option PgError :=
  decodeErrorAux parseInt32 payload.length payload PgError.zero

/-- Modelled from the spec: decoding a number from its decimal text, with an optional
minus sign; a text that is not a number gives 0. -/
def parseDecimal (text : GoString) : Int :=
  let digits (ds : List Byte) : Option Nat :=
    ds.foldl (fun acc d =>
      acc.bind (fun n => if 48 ≤ d.val ∧ d.val ≤ 57 then some (10 * n + (d.val - 48)) else none))
      (some 0)
  match text with
  | [] => 0
  | c :: rest =>
    if c = fieldCode '-' then
      (if rest = [] then 0 else ((digits rest).map (fun n => -(n : Int))).getD 0)
    else ((digits (c :: rest)).map (fun n => (n : Int))).getD 0

/-- An error/notice payload: for each entry the field code, the text and a zero byte, then
the zero field code. -/
def errorPayload (entries : List (Byte × GoString)) : List Byte :=
  (entries.map (fun e => e.1 :: (e.2 ++ [0]))).flatten ++ [0]

/-- An entry of an error/notice payload is well formed when its field code is not zero and
its text holds no zero byte. -/
def WellFormedEntries (entries : List (Byte × GoString)) : Prop :=
  ∀ e ∈ entries, e.1 ≠ 0 ∧ (0 : Byte) ∉ e.2

/-- The entries of a payload whose field code is in the code table. -/
def knownEntries (entries : List (Byte × GoString)) : List (Byte × GoString) :=
  entries.filter (fun e => e.1 ∈ knownFieldCodes)

/-- A payload with an entry of the unknown field code `Z` between known ones. -/
def sampleEntries : List (Byte × GoString) :=
  [(fieldCode 'S', ascii "ERROR"), (fieldCode 'Z', ascii "ignored"),
   (fieldCode 'C', ascii "23505"), (fieldCode 'P', ascii "17"),
   (fieldCode 'M', ascii "Something failed")]

/-- The record with severity `ERROR`, code `23505` and message `Something failed`. -/
def sampleError : PgError :=
  { PgError.zero with
    Severity := ascii "ERROR", Code := ascii "23505", Message := ascii "Something failed" }

/-! ## Call sequences on the builder -/

/-- The length slot of the open message lies inside the buffer, after a tag byte:
`1 <= sizeIdx` and `sizeIdx + 4 <= len(buf)`. -/
def SlotInBounds (wb : WriteBuf) : Prop :=
  1 ≤ wb.sizeIdx ∧ wb.sizeIdx + 4 ≤ wb.buf.length

/-- One call on a `WriteBuf`, with its arguments. -/
inductive BuilderCall where
  | append (op : AppendOp)
  | startMsg (t : Byte)
  | closeMsg
  | reserveSize
  | setComputedSize (sizePosition : Nat)
  | setSize (sizePosition : Nat) (size : Int)
  deriving DecidableEq, Repr

/-- A builder together with the positions `reserveSize` has returned so far. -/
structure BuilderState where
  wb : WriteBuf
  reserved : List Nat
  deriving DecidableEq, Repr

/-- The state after one call; `none` when the call panics.  A `reserveSize` records the
position it returns. -/
def BuilderCall.run (s : BuilderState) : BuilderCall → Option BuilderState
  | .append op => some { s with wb := op.run s.wb }
  | .startMsg t => (Pgx.startMsg s.wb t).map (fun wb => { s with wb := wb })
  | .closeMsg => (Pgx.closeMsg s.wb).map (fun wb => { s with wb := wb })
  | .reserveSize =>
    some { wb := (Pgx.reserveSize s.wb).1, reserved := (Pgx.reserveSize s.wb).2 :: s.reserved }
  | .setComputedSize p => (Pgx.setComputedSize s.wb p).map (fun wb => { s with wb := wb })
  | .setSize p size => (Pgx.setSize s.wb p size).map (fun wb => { s with wb := wb })

/-- The calls considered: a size patch is made at a position that `reserveSize` returned
earlier; any other call is unrestricted. -/
def BuilderCall.Permitted (s : BuilderState) : BuilderCall → Prop
  | .setComputedSize p => p ∈ s.reserved
  | .setSize p _ => p ∈ s.reserved
  | _ => True

/-- The states reachable from `newWriteBuf` by permitted calls that return. -/
inductive Reachable : BuilderState → Prop where
  | start (c : Conn) (t : Byte) : Reachable { wb := newWriteBuf c t, reserved := [] }
  | call (s s1 : BuilderState) (call : BuilderCall) (hs : Reachable s)
      (hp : call.Permitted s) (hr : call.run s = some s1) : Reachable s1

/-- The state after `newWriteBuf(sampleConn, 'Q')`, the operations `sampleOps` and a
`reserveSize`. -/
def sampleReserved : BuilderState :=
  { wb := (reserveSize sampleBuf).1, reserved := [(reserveSize sampleBuf).2] }

/-! ## Reading a startup message back -/

/-- Splitting option bytes at zero bytes into at most `fuel` (key, value) pairs: a key is
read up to its zero byte, an empty key is the terminator of the list, otherwise the value
is read up to its zero byte.  `none` when a zero byte is missing. -/
def readOptionsAux : Nat → List Byte → Option (List (GoString × GoString))
  | 0, _ => none
  | fuel + 1, bytes =>
    match readCString bytes with
    | none => none
    | some (key, rest) =>
      if key = [] then some []
      else
        match readCString rest with
        | none => none
        | some (value, rest1) =>
          (readOptionsAux fuel rest1).map (fun kvs => (key, value) :: kvs)

/-- Reading the options of a startup message back: the bytes after offset 8 are split at
zero bytes until the empty-key terminator. -/
def readStartupOptions (msg : List Byte) : Option (List (GoString × GoString)) :=
  readOptionsAux msg.length (msg.drop 8)

/-- No key and no value contains a zero byte. -/
def ZeroFree (pairs : List (GoString × GoString)) : Prop :=
  ∀ kv ∈ pairs, (0 : Byte) ∉ kv.1 ∧ (0 : Byte) ∉ kv.2

/-- Every key is non-empty. -/
def NonEmptyKeys (pairs : List (GoString × GoString)) : Prop :=
  ∀ kv ∈ pairs, kv.1 ≠ []

/-- A single option with an empty key and the value `x`. -/
def emptyKeyOption : List (GoString × GoString) := [([], ascii "x")]

/-! ## Properties of the encoding helpers -/

theorem byte_val (v : Nat) : (byte v).val = v % 256 := rfl

theorem beEncode_length (w n : Nat) : (beEncode w n).length = w := by
  induction w with
  | zero => rfl
  | succ w ih => simp [beEncode, ih]

theorem beValue_beEncode (w n : Nat) : beValue (beEncode w n) = n % 256 ^ w := by
  induction w with
  | zero => simp [beEncode, beValue, Nat.mod_one]
  | succ w ih =>
    simp only [beEncode, beValue, beEncode_length, ih, byte_val]
    rw [pow_succ, Nat.mod_mul, Nat.mul_comm]
    omega

theorem bigEndian16_eq (v : Nat) : bigEndian16 v = beEncode 2 v := by
  simp [bigEndian16, beEncode, Nat.shiftRight_eq_div_pow]

theorem bigEndian32_eq (v : Nat) : bigEndian32 v = beEncode 4 v := by
  simp [bigEndian32, beEncode, Nat.shiftRight_eq_div_pow]

theorem bigEndian64_eq (v : Nat) : bigEndian64 v = beEncode 8 v := by
  simp [bigEndian64, beEncode, Nat.shiftRight_eq_div_pow]

theorem ConvBuf.first2_put16 (cb : ConvBuf) (n : Nat) : (cb.put16 n).first2 = bigEndian16 n :=
  rfl

theorem ConvBuf.first4_put32 (cb : ConvBuf) (n : Nat) : (cb.put32 n).first4 = bigEndian32 n :=
  rfl

theorem ConvBuf.first8_put64 (cb : ConvBuf) (n : Nat) : (cb.put64 n).first8 = bigEndian64 n :=
  rfl

theorem PutUint32_eq (buf : List Byte) (off v : Nat) (h : off + 4 ≤ buf.length) :
    PutUint32 buf off v = some (buf.take off ++ bigEndian32 v ++ buf.drop (off + 4)) := by
  unfold PutUint32
  rw [if_pos h]
  congr 1
  induction buf generalizing off with
  | nil => simp at h
  | cons a as ih =>
    cases off with
    | zero =>
      match as, h with
      | b :: c :: d :: rest, _ => simp [bigEndian32]
    | succ k =>
      have hk : k + 4 ≤ as.length := by simpa using h
      have := ih k hk
      simp only [List.set_cons_succ, List.take_succ_cons, List.cons_append, List.drop_succ_cons,
        Nat.add_right_comm k 1] at this ⊢
      rw [this]

theorem PutUint32_none (buf : List Byte) (off v : Nat) (h : buf.length < off + 4) :
    PutUint32 buf off v = none := by
  unfold PutUint32
  rw [if_neg (by omega)]

theorem beEncode4_mod (n : Nat) : beEncode 4 (n % 4294967296) = beEncode 4 n := by
  simp only [beEncode, byte, List.cons.injEq, Fin.mk.injEq, and_true]
  norm_num
  omega

theorem bigEndian32_uint32 (n : Nat) : bigEndian32 (uint32 (n : Int)) = beEncode 4 n := by
  have h : uint32 (n : Int) = n % 4294967296 := by unfold uint32; omega
  rw [h, bigEndian32_eq, beEncode4_mod]

/-! ## Properties of the append operations -/

theorem AppendOp.run_buf (wb : WriteBuf) (op : AppendOp) :
    (op.run wb).buf = wb.buf ++ op.appended := by
  cases op <;>
    simp [AppendOp.run, AppendOp.appended, Pgx.WriteByte, Pgx.WriteCString, Pgx.WriteInt16,
      Pgx.WriteUint16, Pgx.WriteInt32, Pgx.WriteUint32, Pgx.WriteInt64, Pgx.WriteUint64,
      Pgx.WriteBytes, Pgx.Write, ConvBuf.put16, ConvBuf.put32, ConvBuf.put64, ConvBuf.first2,
      ConvBuf.first4, ConvBuf.first8, beEncode, Nat.shiftRight_eq_div_pow, uint16, uint32, uint64]

theorem AppendOp.run_sizeIdx (wb : WriteBuf) (op : AppendOp) :
    (op.run wb).sizeIdx = wb.sizeIdx := by
  cases op <;> rfl

theorem runOps_buf (wb : WriteBuf) (ops : List AppendOp) :
    (runOps wb ops).buf = wb.buf ++ payloadOf ops := by
  induction ops generalizing wb with
  | nil => simp [runOps, payloadOf]
  | cons op ops ih =>
    have := ih (op.run wb)
    simp only [runOps, List.foldl_cons, payloadOf, List.map_cons, List.flatten_cons] at this ⊢
    rw [this, AppendOp.run_buf, List.append_assoc]

theorem runOps_sizeIdx (wb : WriteBuf) (ops : List AppendOp) :
    (runOps wb ops).sizeIdx = wb.sizeIdx := by
  induction ops generalizing wb with
  | nil => rfl
  | cons op ops ih =>
    have := ih (op.run wb)
    simp only [runOps, List.foldl_cons] at this ⊢
    rw [this, AppendOp.run_sizeIdx]

/-! ## Properties of the size patches -/

theorem closeMsg_eq (wb : WriteBuf) (h : wb.sizeIdx + 4 ≤ wb.buf.length) :
    closeMsg wb = some { wb with buf := (wb.buf.take wb.sizeIdx ++
      beEncode 4 (wb.buf.length - wb.sizeIdx) ++ wb.buf.drop (wb.sizeIdx + 4)) } := by
  have hc : ((wb.buf.length : Int) - (wb.sizeIdx : Int)) = ((wb.buf.length - wb.sizeIdx : Nat) : Int) := by
    omega
  unfold closeMsg
  rw [PutUint32_eq _ _ _ h, hc, bigEndian32_uint32]
  rfl

theorem frame_drop_tag (t : Byte) (p : List Byte) :
    (frame t p).drop 1 = beEncode 4 (4 + p.length) ++ p := by
  simp [frame]

theorem frame_length (t : Byte) (p : List Byte) : (frame t p).length = 1 + (4 + p.length) := by
  simp [frame, beEncode_length]; omega

theorem frame_length_field (t : Byte) (p : List Byte) (h : 4 + p.length < 2 ^ 32) :
    beValue (((frame t p).drop 1).take 4) = 4 + p.length := by
  have h4 : (beEncode 4 (4 + p.length)).length = 4 := beEncode_length _ _
  rw [frame_drop_tag, List.take_left' h4, beValue_beEncode]
  apply Nat.mod_eq_of_lt
  norm_num at h ⊢
  exact h

theorem closeMsg_first (c : Conn) (t : Byte) (ops : List AppendOp) :
    closeMsg (runOps (newWriteBuf c t) ops) =
      some { runOps (newWriteBuf c t) ops with buf := frame t (payloadOf ops) } := by
  have hb : (runOps (newWriteBuf c t) ops).buf = [t, 0, 0, 0, 0] ++ payloadOf ops := by
    rw [runOps_buf]; simp [newWriteBuf]
  have hs : (runOps (newWriteBuf c t) ops).sizeIdx = 1 := by
    rw [runOps_sizeIdx]; rfl
  have hle : (runOps (newWriteBuf c t) ops).sizeIdx + 4 ≤
      (runOps (newWriteBuf c t) ops).buf.length := by
    rw [hb, hs]; simp
  rw [closeMsg_eq _ hle, hb, hs]
  have hl : ([t, 0, 0, 0, 0] ++ payloadOf ops).length - 1 = 4 + (payloadOf ops).length := by
    simp; omega
  rw [hl]
  simp [frame, hs]

/-- C1. For every tag `t` and every sequence `ops` of append operations applied to
`newWriteBuf(c, t)`, the buffer before the close is the tag, four zero bytes and the
appended bytes, `closeMsg` succeeds, and afterwards the buffer is
`[t] ++ BE32(4 + n) ++ payload` with `payload` the concatenation of the appended bytes and
`n` its length.  Assuming `4 + n < 2^32`, the big-endian value of the length field is the
number of bytes from the start of the length field to the end of the buffer, which is
`4 + n` and leaves the tag byte out. -/
theorem C1_closed_message_layout (c : Conn) (t : Byte) (ops : List AppendOp)
    (h : 4 + (payloadOf ops).length < 2 ^ 32) :
    (runOps (newWriteBuf c t) ops).buf = [t, 0, 0, 0, 0] ++ payloadOf ops ∧
    ∃ wb, closeMsg (runOps (newWriteBuf c t) ops) = some wb ∧
      wb.buf = [t] ++ beEncode 4 (4 + (payloadOf ops).length) ++ payloadOf ops ∧
      beValue ((wb.buf.drop 1).take 4) = (wb.buf.drop 1).length ∧
      (wb.buf.drop 1).length = 4 + (payloadOf ops).length ∧
      wb.buf.length = 1 + (4 + (payloadOf ops).length) := by
  refine ⟨by rw [runOps_buf]; simp [newWriteBuf], _, closeMsg_first c t ops, rfl, ?_, ?_, ?_⟩
  · show beValue (((frame t (payloadOf ops)).drop 1).take 4) =
      ((frame t (payloadOf ops)).drop 1).length
    rw [frame_length_field t _ h, List.length_drop, frame_length]
    omega
  · show ((frame t (payloadOf ops)).drop 1).length = _
    rw [List.length_drop, frame_length]
    omega
  · exact frame_length t _

/-- The statement of C1 at tag `'Q'` and the operations `sampleOps`. -/
theorem C1_closed_message_layout_witness :
    4 + (payloadOf sampleOps).length < 2 ^ 32 ∧
    (runOps (newWriteBuf sampleConn 81) sampleOps).buf =
      [81, 0, 0, 0, 0] ++ payloadOf sampleOps ∧
    ∃ wb, closeMsg (runOps (newWriteBuf sampleConn 81) sampleOps) = some wb ∧
      wb.buf = [81] ++ beEncode 4 (4 + (payloadOf sampleOps).length) ++ payloadOf sampleOps ∧
      beValue ((wb.buf.drop 1).take 4) = (wb.buf.drop 1).length ∧
      (wb.buf.drop 1).length = 4 + (payloadOf sampleOps).length ∧
      wb.buf.length = 1 + (4 + (payloadOf sampleOps).length) :=
  ⟨by decide, C1_closed_message_layout sampleConn 81 sampleOps (by decide)⟩

/-! ## Consecutive messages -/

theorem PutUint32_slot (pre slot post : List Byte) (v : Nat) (h : slot.length = 4) :
    PutUint32 (pre ++ slot ++ post) pre.length v = some (pre ++ bigEndian32 v ++ post) := by
  rw [PutUint32_eq _ _ _ (by simp [h])]
  congr 2
  · rw [List.append_assoc, List.take_left]
  · rw [← h, ← List.length_append, List.drop_left]

theorem closeMsg_open (wb : WriteBuf) (pre p : List Byte) (t : Byte) (slot : List Byte)
    (hslot : slot.length = 4) (hb : wb.buf = (pre ++ [t]) ++ slot ++ p)
    (hs : wb.sizeIdx = pre.length + 1) :
    closeMsg wb = some { wb with buf := pre ++ frame t p } := by
  obtain ⟨buf, cb, si⟩ := wb
  dsimp only at hb hs
  subst hb
  subst hs
  unfold closeMsg
  dsimp only
  have hl : (((pre ++ [t] ++ slot ++ p).length : Int) - ((pre.length + 1 : Nat) : Int)) =
      ((4 + p.length : Nat) : Int) := by
    simp [hslot]
  have hpre : pre.length + 1 = (pre ++ [t]).length := by simp
  rw [hl, hpre, PutUint32_slot _ _ _ _ hslot, bigEndian32_uint32]
  simp [frame]

theorem startMsg_open (wb : WriteBuf) (pre p : List Byte) (t : Byte) (slot : List Byte)
    (hslot : slot.length = 4) (hb : wb.buf = (pre ++ [t]) ++ slot ++ p)
    (hs : wb.sizeIdx = pre.length + 1) (t2 : Byte) :
    startMsg wb t2 = some { wb with buf := (pre ++ frame t p) ++ [t2, 0, 0, 0, 0],
                                    sizeIdx := (pre ++ frame t p).length + 1 } := by
  unfold startMsg
  rw [closeMsg_open wb pre p t slot hslot hb hs]
  simp

theorem runMsgs_open (more : List Msg) (wb : WriteBuf) (pre p : List Byte) (t : Byte)
    (slot : List Byte) (hslot : slot.length = 4) (hb : wb.buf = (pre ++ [t]) ++ slot ++ p)
    (hs : wb.sizeIdx = pre.length + 1) :
    ∃ wb1, (runMsgs wb more).bind closeMsg = some wb1 ∧
      wb1.buf = pre ++ frame t p ++ framesOf more := by
  induction more generalizing wb pre p t slot with
  | nil =>
    refine ⟨{ wb with buf := pre ++ frame t p }, ?_, ?_⟩
    · simp only [runMsgs, Option.some_bind]
      exact closeMsg_open wb pre p t slot hslot hb hs
    · simp [framesOf]
  | cons m ms ih =>
    simp only [runMsgs, startMsg_open wb pre p t slot hslot hb hs, Option.some_bind]
    obtain ⟨wb1, h1, h2⟩ := ih
      (runOps { wb with buf := (pre ++ frame t p) ++ [m.1, 0, 0, 0, 0],
                        sizeIdx := (pre ++ frame t p).length + 1 } m.2)
      (pre ++ frame t p) (payloadOf m.2) m.1 [0, 0, 0, 0] rfl
      (by rw [runOps_buf]; simp) (by rw [runOps_sizeIdx])
    refine ⟨wb1, h1, ?_⟩
    rw [h2]
    simp [framesOf]

theorem runBatch_buf (c : Conn) (first : Msg) (more : List Msg) :
    ∃ wb, runBatch c first more = some wb ∧ wb.buf = framesOf (first :: more) := by
  obtain ⟨wb, h1, h2⟩ := runMsgs_open more (runOps (newWriteBuf c first.1) first.2) []
    (payloadOf first.2) first.1 [0, 0, 0, 0] rfl
    (by rw [runOps_buf]; simp [newWriteBuf]) (by rw [runOps_sizeIdx]; rfl)
  refine ⟨wb, h1, ?_⟩
  rw [h2]
  simp [framesOf]
theorem splitFramesAux_frames (fs : List (Byte × List Byte))
    (hfs : ∀ f ∈ fs, 4 + f.2.length < 2 ^ 32) (fuel : Nat) (hfuel : fs.length ≤ fuel) :
    splitFramesAux fuel ((fs.map (fun f => frame f.1 f.2)).flatten) = some fs := by
  induction fs generalizing fuel with
  | nil => cases fuel <;> rfl
  | cons f fs ih =>
    obtain ⟨t, p⟩ := f
    cases fuel with
    | zero => simp at hfuel
    | succ fuel =>
      have hp : 4 + p.length < 2 ^ 32 := hfs (t, p) (List.mem_cons_self _ _)
      have h4 : (beEncode 4 (4 + p.length)).length = 4 := beEncode_length _ _
      have hv : beValue (beEncode 4 (4 + p.length)) = 4 + p.length := by
        rw [beValue_beEncode]
        apply Nat.mod_eq_of_lt
        norm_num at hp ⊢
        exact hp
      have ih1 := ih (fun f hf => hfs f (List.mem_cons_of_mem _ hf)) fuel (by simpa using hfuel)
      generalize hrest : (fs.map (fun f => frame f.1 f.2)).flatten = restbuf at ih1
      have hshape : ((((t, p) :: fs).map (fun f => frame f.1 f.2)).flatten) =
          t :: (beEncode 4 (4 + p.length) ++ (p ++ restbuf)) := by
        simp only [List.map_cons, List.flatten_cons, hrest]
        simp [frame]
      rw [hshape]
      simp only [splitFramesAux]
      have htake : (beEncode 4 (4 + p.length) ++ (p ++ restbuf)).take 4 =
          beEncode 4 (4 + p.length) := List.take_left' h4
      rw [htake, hv]
      have hlen : (beEncode 4 (4 + p.length) ++ (p ++ restbuf)).length =
          4 + p.length + restbuf.length := by
        simp [h4]; omega
      rw [if_pos ⟨by omega, by rw [hlen]; omega⟩]
      have hsplit : beEncode 4 (4 + p.length) ++ (p ++ restbuf) =
          (beEncode 4 (4 + p.length) ++ p) ++ restbuf := by simp
      have hl2 : (beEncode 4 (4 + p.length) ++ p).length = 4 + p.length := by simp [h4]
      rw [hsplit, List.drop_left' hl2, List.take_left' hl2, List.drop_left' h4, ih1]
      rfl

theorem splitFrames_framesOf (msgs : List Msg)
    (h : ∀ m ∈ msgs, 4 + (payloadOf m.2).length < 2 ^ 32) :
    splitFrames (framesOf msgs) = some (msgs.map (fun m => (m.1, payloadOf m.2))) := by
  have hf : framesOf msgs =
      ((msgs.map (fun m => (m.1, payloadOf m.2))).map (fun f => frame f.1 f.2)).flatten := by
    simp [framesOf, List.map_map, Function.comp_def]
  unfold splitFrames
  rw [hf]
  apply splitFramesAux_frames
  · intro f hf
    obtain ⟨m, hm, rfl⟩ := List.mem_map.1 hf
    exact h m hm
  · rw [← hf]
    have : ∀ ms : List Msg, ms.length ≤ (framesOf ms).length := by
      intro ms
      induction ms with
      | nil => simp
      | cons m ms ih =>
        simp only [framesOf, List.map_cons, List.flatten_cons, List.length_append,
          List.length_cons, frame_length] at ih ⊢
        omega
    simpa using this msgs

/-- C2, amended. Starting a new message finalises the previous one.  For every batch
`newWriteBuf(c, t1); ops1; startMsg(t2); ops2; ...; closeMsg()` of one or more messages,
with no `closeMsg` before any `startMsg`, every call succeeds and the final buffer is the
concatenation of the frames `[t_i] ++ BE32(4 + |p_i|) ++ p_i`; for two messages it is
`[t1] ++ BE32(4 + |p1|) ++ p1 ++ [t2] ++ BE32(4 + |p2|) ++ p2`.  When every length
`4 + |p_i|` fits the 32-bit length field, reading the buffer back frame by frame recovers
exactly the tags and payloads that were written. -/
theorem C2_consecutive_messages (c : Conn) (first : Msg) (more : List Msg) :
    ∃ wb, runBatch c first more = some wb ∧
      wb.buf = framesOf (first :: more) ∧
      (∀ t2 ops2, more = [(t2, ops2)] →
        wb.buf = [first.1] ++ beEncode 4 (4 + (payloadOf first.2).length) ++ payloadOf first.2 ++
          [t2] ++ beEncode 4 (4 + (payloadOf ops2).length) ++ payloadOf ops2) ∧
      ((∀ m ∈ first :: more, 4 + (payloadOf m.2).length < 2 ^ 32) →
        splitFrames wb.buf = some ((first :: more).map (fun m => (m.1, payloadOf m.2)))) := by
  obtain ⟨wb, h1, h2⟩ := runBatch_buf c first more
  refine ⟨wb, h1, h2, ?_, ?_⟩
  · intro t2 ops2 hm
    rw [h2, hm]
    simp [framesOf, frame]
  · intro hb
    rw [h2]
    exact splitFrames_framesOf _ hb

/-- The statement of C2 for the two messages `'Q'` with `sampleOps` and `'Z'` with one
byte. -/
theorem C2_consecutive_messages_witness :
    ∃ wb, runBatch sampleConn (81, sampleOps) [(90, [.WriteByte 1])] = some wb ∧
      wb.buf = [81] ++ beEncode 4 (4 + (payloadOf sampleOps).length) ++ payloadOf sampleOps ++
          [90] ++ beEncode 4 (4 + (payloadOf [.WriteByte 1]).length) ++
          payloadOf [.WriteByte 1] ∧
      splitFrames wb.buf =
        some [(81, payloadOf sampleOps), (90, payloadOf [.WriteByte 1])] := by
  obtain ⟨wb, h1, _, h3, h4⟩ :=
    C2_consecutive_messages sampleConn (81, sampleOps) [(90, [.WriteByte 1])]
  exact ⟨wb, h1, h3 90 [.WriteByte 1] rfl, h4 (by decide)⟩

theorem splitFramesAux_zero_length (t : Byte) (rest : List Byte) (fuel : Nat) :
    splitFramesAux (fuel + 1) (t :: ([0, 0, 0, 0] ++ rest)) = none := by
  have ht : ([0, 0, 0, 0] ++ rest).take 4 = ([0, 0, 0, 0] : List Byte) := List.take_left' rfl
  have hv : beValue ([0, 0, 0, 0] : List Byte) = 0 := by decide
  simp only [splitFramesAux, ht, hv]
  rw [if_neg]
  intro h
  omega

theorem runBatch_wrapped (c : Conn) (t1 t2 : Byte) (b : List Byte)
    (hb : b.length = 4294967292) :
    ∃ wb, runBatch c (t1, [.WriteBytes b]) [(t2, [])] = some wb ∧
      wb.buf = [t1] ++ [0, 0, 0, 0] ++ b ++ [t2] ++ [0, 0, 0, 4] ∧
      beValue ((wb.buf.drop 1).take 4) = 0 ∧
      splitFrames wb.buf = none := by
  obtain ⟨wb, h1, h2⟩ := runBatch_buf c (t1, [.WriteBytes b]) [(t2, [])]
  have hp : payloadOf [.WriteBytes b] = b := by
    simp only [payloadOf, List.map_cons, List.map_nil, AppendOp.appended, List.flatten_cons,
      List.flatten_nil, List.append_nil]
  have he : beEncode 4 (4 + b.length) = [0, 0, 0, 0] := by rw [hb]; decide
  have hf1 : frame t1 b = t1 :: ([0, 0, 0, 0] ++ b) := by
    simp only [frame, he]
    rfl
  have hf2 : frame t2 (payloadOf []) = [t2, 0, 0, 0, 4] := rfl
  have hbuf : wb.buf = t1 :: ([0, 0, 0, 0] ++ (b ++ [t2, 0, 0, 0, 4])) := by
    rw [h2]
    simp only [framesOf, List.map_cons, List.map_nil, List.flatten_cons, List.flatten_nil,
      List.append_nil, hp, hf1, hf2, List.cons_append, List.append_assoc]
  refine ⟨wb, h1, ?_, ?_, ?_⟩
  · rw [hbuf]
    simp only [List.cons_append, List.nil_append, List.append_assoc, List.singleton_append]
  · have ht : ([0, 0, 0, 0] ++ (b ++ [t2, 0, 0, 0, 4])).take 4 = ([0, 0, 0, 0] : List Byte) :=
      List.take_left' rfl
    rw [hbuf, List.drop_succ_cons, List.drop_zero, ht]
    decide
  · rw [hbuf]
    unfold splitFrames
    rw [List.length_cons]
    exact splitFramesAux_zero_length t1 _ _

/-- C2 as stated fails for a large payload: when the first message carries the
4294967292 bytes of `hugePayload`, the batch still succeeds and has the two-frame layout,
but `4 + |p1|` is `2^32`, the stored length field wraps to zero, and the buffer does not
split back into frames. -/
theorem C2_huge_payload_does_not_split :
    4 + hugePayload.length = 2 ^ 32 ∧
    ∃ wb, runBatch sampleConn (81, [.WriteBytes hugePayload]) [(90, [])] = some wb ∧
      wb.buf = [81] ++ [0, 0, 0, 0] ++ hugePayload ++ [90] ++ [0, 0, 0, 4] ∧
      beValue ((wb.buf.drop 1).take 4) = 0 ∧
      splitFrames wb.buf = none := by
  have hl : hugePayload.length = 4294967292 := List.length_replicate 4294967292 0
  refine ⟨by rw [hl]; rfl, runBatch_wrapped sampleConn 81 90 hugePayload hl⟩

/-! ## Properties of the startup message -/

theorem foldl_appendOption (order : List (GoString × GoString)) (buf : List Byte) :
    order.foldl startupMessage.appendOption buf = buf ++ optionBytes order := by
  induction order generalizing buf with
  | nil => simp [optionBytes]
  | cons kv order ih =>
    rw [List.foldl_cons, ih]
    simp [startupMessage.appendOption, optionBytes]

theorem optionBytes_length (order : List (GoString × GoString)) :
    (optionBytes order).length = optionsSize order := by
  induction order with
  | nil => rfl
  | cons kv order ih =>
    simp only [optionBytes, optionsSize, List.map_cons, List.flatten_cons, List.length_append,
      List.sum_cons, List.length_cons, List.length_nil] at ih ⊢
    omega

theorem optionsSize_perm {o1 o2 : List (GoString × GoString)} (h : List.Perm o1 o2) :
    optionsSize o1 = optionsSize o2 :=
  (h.map _).sum_eq

theorem BytesIn_eq (order : List (GoString × GoString)) :
    startupMessage.BytesIn order =
      some (beEncode 4 (9 + optionsSize order) ++ beEncode 4 196608 ++ optionBytes order ++ [0]) := by
  have h0 : PutUint32 (List.replicate 8 0) 4 (uint32 protocolVersionNumber) =
      some ([0, 0, 0, 0] ++ beEncode 4 196608) := by decide
  unfold startupMessage.BytesIn
  rw [h0, Option.some_bind]
  simp only [foldl_appendOption]
  have hshape : [0, 0, 0, 0] ++ beEncode 4 196608 ++ optionBytes order ++ [0] =
      ([] ++ [0, 0, 0, 0]) ++ (beEncode 4 196608 ++ optionBytes order ++ [0]) := by simp
  have hlen : ([0, 0, 0, 0] ++ beEncode 4 196608 ++ optionBytes order ++ [0]).length =
      9 + optionsSize order := by
    simp [beEncode_length, optionBytes_length]; omega
  rw [hlen, hshape]
  have := PutUint32_slot [] [0, 0, 0, 0] (beEncode 4 196608 ++ optionBytes order ++ [0])
    (uint32 ((9 + optionsSize order : Nat) : Int)) rfl
  rw [List.length_nil] at this
  rw [this, bigEndian32_uint32]
  simp

theorem BytesIn_length (order : List (GoString × GoString)) (out : List Byte)
    (h : startupMessage.BytesIn order = some out) : out.length = 9 + optionsSize order := by
  rw [BytesIn_eq] at h
  cases h
  simp [beEncode_length, optionBytes_length]
  omega

theorem BytesIn_length_field (order : List (GoString × GoString)) (out : List Byte)
    (h : startupMessage.BytesIn order = some out) :
    beValue (out.take 4) = (9 + optionsSize order) % 2 ^ 32 := by
  rw [BytesIn_eq] at h
  cases h
  have h4 : (beEncode 4 (9 + optionsSize order)).length = 4 := beEncode_length _ _
  rw [List.append_assoc, List.append_assoc, List.take_left' h4, beValue_beEncode]
  norm_num

theorem optionsSize_single (k v : GoString) :
    optionsSize [(k, v)] = k.length + v.length + 2 := by
  simp [optionsSize]

theorem Bytes_exists (s : startupMessage) : ∃ out, s.Bytes out :=
  ⟨_, s.options, List.Perm.refl _, BytesIn_eq s.options⟩

theorem perm_pair_cases {α : Type} {a b : α} {l : List α} (h : List.Perm l [a, b]) :
    l = [a, b] ∨ l = [b, a] := by
  obtain ⟨x, y, rfl⟩ := List.length_eq_two.1 (h.length_eq.trans rfl)
  have hx : x ∈ [a, b] := h.mem_iff.1 (List.mem_cons_self _ _)
  simp only [List.mem_cons, List.mem_singleton, List.not_mem_nil, or_false] at hx
  rcases hx with rfl | rfl
  · left
    have := (List.perm_cons x).1 h
    rw [List.perm_singleton] at this
    rw [this]
  · right
    have h2 : List.Perm [x, y] [x, a] := h.trans (List.Perm.swap x a [])
    have := (List.perm_cons x).1 h2
    rw [List.perm_singleton] at this
    rw [this]

/-- C3, amended. For every startup option map whose encoded length
`9 + sum (len(key) + len(value) + 2)` is below `2^32`, `Bytes` returns a result, and for
every result (whatever the order of the `range` loop) the first four bytes read as a
big-endian integer equal the length of the whole result, which is that sum.  The empty
map yields exactly 9 bytes, and for `{user: alice, database: test}` the length field
is 34. -/
theorem C3_startup_length_field (s : startupMessage)
    (hsize : 9 + optionsSize s.options < 2 ^ 32) :
    (∃ out, s.Bytes out) ∧
    (∀ out, s.Bytes out →
      beValue (out.take 4) = out.length ∧ out.length = 9 + optionsSize s.options) ∧
    (∀ out, newStartupMessage.Bytes out → out.length = 9) ∧
    (∀ out, userAliceDatabaseTest.Bytes out → beValue (out.take 4) = 34) := by
  refine ⟨Bytes_exists s, ?_, ?_, ?_⟩
  · rintro out ⟨order, hperm, hout⟩
    rw [BytesIn_length_field order out hout, BytesIn_length order out hout,
      optionsSize_perm hperm]
    exact ⟨Nat.mod_eq_of_lt hsize, rfl⟩
  · rintro out ⟨order, hperm, hout⟩
    rw [BytesIn_length order out hout, optionsSize_perm hperm]
    rfl
  · rintro out ⟨order, hperm, hout⟩
    rw [BytesIn_length_field order out hout, optionsSize_perm hperm]
    decide

/-- The statement of C3 at the options `{user: alice, database: test}`. -/
theorem C3_startup_length_field_witness :
    9 + optionsSize userAliceDatabaseTest.options < 2 ^ 32 ∧
    (∃ out, userAliceDatabaseTest.Bytes out) ∧
    (∀ out, userAliceDatabaseTest.Bytes out →
      beValue (out.take 4) = out.length ∧
      out.length = 9 + optionsSize userAliceDatabaseTest.options) :=
  ⟨by decide, (C3_startup_length_field userAliceDatabaseTest (by decide)).1,
    (C3_startup_length_field userAliceDatabaseTest (by decide)).2.1⟩

/-- C3 as stated fails for a large option map: with the single option of `hugeOptions`
the encoded message is `2^32` bytes long, the conversion `uint32(len(buf))` wraps to
zero, and the length field reads 0 instead of 4294967296. -/
theorem C3_huge_options_length_field :
    (∃ out, hugeOptions.Bytes out) ∧
    ∀ out, hugeOptions.Bytes out →
      out.length = 4294967296 ∧ beValue (out.take 4) = 0 ∧ beValue (out.take 4) ≠ out.length := by
  have hsz : optionsSize hugeOptions.options = 4294967287 := by
    show optionsSize [(List.replicate 4294967285 97, [])] = 4294967287
    rw [optionsSize_single, List.length_replicate]
    rfl
  refine ⟨Bytes_exists _, ?_⟩
  rintro out ⟨order, hperm, hout⟩
  have hl := BytesIn_length order out hout
  have hf := BytesIn_length_field order out hout
  rw [optionsSize_perm hperm, hsz] at hl hf
  norm_num at hl hf
  rw [hl, hf]
  exact ⟨rfl, rfl, by omega⟩

/-- C4. For every startup option map `Bytes` returns a result, and every result has the
layout `BE32(totalLength) ++ BE32(196608) ++ body ++ [0]`, where `totalLength` is the
length of the result, `196608 = (3 << 16) | 0` is `protocolVersionNumber`, and `body` is
the concatenation of `key ++ [0] ++ value ++ [0]` over some ordering of the entries in
which each entry appears exactly once.  For `{user: alice, database: test}` the body is
`user\0alice\0database\0test\0` or `database\0test\0user\0alice\0`, followed by one zero
byte. -/
theorem C4_startup_layout (s : startupMessage) :
    (∃ out, s.Bytes out) ∧
    (∀ out, s.Bytes out → ∃ order, List.Perm order s.options ∧
      out = beEncode 4 out.length ++ beEncode 4 196608 ++ optionBytes order ++ [0]) ∧
    protocolVersionNumber = 196608 ∧ 196608 = (3 <<< 16) ||| 0 ∧
    (∀ out, userAliceDatabaseTest.Bytes out →
      out = [0, 0, 0, 34] ++ [0, 3, 0, 0] ++
          ascii "user\x00alice\x00database\x00test\x00" ++ [0] ∨
      out = [0, 0, 0, 34] ++ [0, 3, 0, 0] ++
          ascii "database\x00test\x00user\x00alice\x00" ++ [0]) := by
  refine ⟨Bytes_exists s, ?_, rfl, by decide, ?_⟩
  · rintro out ⟨order, hperm, hout⟩
    refine ⟨order, hperm, ?_⟩
    rw [BytesIn_length order out hout]
    have := BytesIn_eq order
    rw [hout] at this
    exact Option.some.inj this
  · rintro out ⟨order, hperm, hout⟩
    rcases perm_pair_cases hperm with rfl | rfl
    · left
      have : startupMessage.BytesIn [(ascii "user", ascii "alice"), (ascii "database", ascii "test")] = some
          ([0, 0, 0, 34] ++ [0, 3, 0, 0] ++
          ascii "user\x00alice\x00database\x00test\x00" ++ [0]) := by decide
      rw [this] at hout
      exact (Option.some.inj hout).symm
    · right
      have : startupMessage.BytesIn [(ascii "database", ascii "test"), (ascii "user", ascii "alice")] = some
          ([0, 0, 0, 34] ++ [0, 3, 0, 0] ++
          ascii "database\x00test\x00user\x00alice\x00" ++ [0]) := by decide
      rw [this] at hout
      exact (Option.some.inj hout).symm

/-- The layout of C4 at the result `userAliceBytes` for `{user: alice, database: test}`. -/
theorem C4_startup_layout_witness :
    userAliceDatabaseTest.Bytes userAliceBytes ∧
    ∃ order, List.Perm order userAliceDatabaseTest.options ∧
      userAliceBytes =
        beEncode 4 userAliceBytes.length ++ beEncode 4 196608 ++ optionBytes order ++ [0] :=
  ⟨⟨userAliceDatabaseTest.options, List.Perm.refl _, by decide⟩,
    (C4_startup_layout userAliceDatabaseTest).2.1 userAliceBytes
      ⟨userAliceDatabaseTest.options, List.Perm.refl _, by decide⟩⟩

/-! ## Integer writes -/

theorem WriteUint16_buf (wb : WriteBuf) (n : Nat) :
    (WriteUint16 wb n).1.buf = wb.buf ++ beEncode 2 n :=
  AppendOp.run_buf wb (.WriteUint16 n)

theorem WriteUint32_buf (wb : WriteBuf) (n : Nat) :
    (WriteUint32 wb n).1.buf = wb.buf ++ beEncode 4 n :=
  AppendOp.run_buf wb (.WriteUint32 n)

theorem WriteUint64_buf (wb : WriteBuf) (n : Nat) :
    (WriteUint64 wb n).1.buf = wb.buf ++ beEncode 8 n :=
  AppendOp.run_buf wb (.WriteUint64 n)

theorem WriteInt16_buf (wb : WriteBuf) (n : Int) :
    (WriteInt16 wb n).buf = wb.buf ++ beEncode 2 (n % 65536).toNat :=
  AppendOp.run_buf wb (.WriteInt16 n)

theorem WriteInt32_buf (wb : WriteBuf) (n : Int) :
    (WriteInt32 wb n).buf = wb.buf ++ beEncode 4 (n % 4294967296).toNat :=
  AppendOp.run_buf wb (.WriteInt32 n)

theorem WriteInt64_buf (wb : WriteBuf) (n : Int) :
    (WriteInt64 wb n).buf = wb.buf ++ beEncode 8 (n % 18446744073709551616).toNat :=
  AppendOp.run_buf wb (.WriteInt64 n)

/-- C5. Unsigned integer writes are big-endian: for every 16-, 32- and 64-bit unsigned
`n`, `WriteUint16(n)`, `WriteUint32(n)` and `WriteUint64(n)` append exactly 2, 4 and 8
bytes, and those bytes read most significant byte first give back `n`.  Writing 300
appends `01 2C` on 16 bits and `00 00 01 2C` on 32 bits; writing 0 appends zero bytes. -/
theorem C5_unsigned_writes_big_endian (wb : WriteBuf) (n16 n32 n64 : Nat)
    (h16 : n16 < 2 ^ 16) (h32 : n32 < 2 ^ 32) (h64 : n64 < 2 ^ 64) :
    (∃ bs, (WriteUint16 wb n16).1.buf = wb.buf ++ bs ∧ bs.length = 2 ∧ beValue bs = n16) ∧
    (∃ bs, (WriteUint32 wb n32).1.buf = wb.buf ++ bs ∧ bs.length = 4 ∧ beValue bs = n32) ∧
    (∃ bs, (WriteUint64 wb n64).1.buf = wb.buf ++ bs ∧ bs.length = 8 ∧ beValue bs = n64) ∧
    (WriteUint16 wb 300).1.buf = wb.buf ++ [0x01, 0x2C] ∧
    (WriteUint32 wb 300).1.buf = wb.buf ++ [0x00, 0x00, 0x01, 0x2C] ∧
    (WriteUint16 wb 0).1.buf = wb.buf ++ [0, 0] ∧
    (WriteUint32 wb 0).1.buf = wb.buf ++ [0, 0, 0, 0] ∧
    (WriteUint64 wb 0).1.buf = wb.buf ++ [0, 0, 0, 0, 0, 0, 0, 0] := by
  refine ⟨⟨_, WriteUint16_buf wb n16, beEncode_length _ _, ?_⟩,
    ⟨_, WriteUint32_buf wb n32, beEncode_length _ _, ?_⟩,
    ⟨_, WriteUint64_buf wb n64, beEncode_length _ _, ?_⟩,
    WriteUint16_buf wb 300, WriteUint32_buf wb 300, WriteUint16_buf wb 0,
    WriteUint32_buf wb 0, WriteUint64_buf wb 0⟩
  · rw [beValue_beEncode]; exact Nat.mod_eq_of_lt (by norm_num at h16 ⊢; exact h16)
  · rw [beValue_beEncode]; exact Nat.mod_eq_of_lt (by norm_num at h32 ⊢; exact h32)
  · rw [beValue_beEncode]; exact Nat.mod_eq_of_lt (by norm_num at h64 ⊢; exact h64)

/-- The statement of C5 at the values 300, 70000 and `2^40` written to `sampleBuf`. -/
theorem C5_unsigned_writes_big_endian_witness :
    (300 < 2 ^ 16 ∧ 70000 < 2 ^ 32 ∧ 1099511627776 < 2 ^ 64) ∧
    (∃ bs, (WriteUint16 sampleBuf 300).1.buf = sampleBuf.buf ++ bs ∧ bs.length = 2 ∧
      beValue bs = 300) ∧
    (∃ bs, (WriteUint32 sampleBuf 70000).1.buf = sampleBuf.buf ++ bs ∧ bs.length = 4 ∧
      beValue bs = 70000) ∧
    (∃ bs, (WriteUint64 sampleBuf 1099511627776).1.buf = sampleBuf.buf ++ bs ∧
      bs.length = 8 ∧ beValue bs = 1099511627776) :=
  ⟨by decide,
    (C5_unsigned_writes_big_endian sampleBuf 300 70000 1099511627776
      (by decide) (by decide) (by decide)).1,
    (C5_unsigned_writes_big_endian sampleBuf 300 70000 1099511627776
      (by decide) (by decide) (by decide)).2.1,
    (C5_unsigned_writes_big_endian sampleBuf 300 70000 1099511627776
      (by decide) (by decide) (by decide)).2.2.1⟩

theorem beSigned_beEncode2 (n : Int) (h : -2 ^ 15 ≤ n ∧ n < 2 ^ 15) :
    beSigned (beEncode 2 (n % 65536).toNat) = n := by
  unfold beSigned
  rw [beValue_beEncode, beEncode_length]
  norm_num at h ⊢
  split <;> omega

theorem beSigned_beEncode4 (n : Int) (h : -2 ^ 31 ≤ n ∧ n < 2 ^ 31) :
    beSigned (beEncode 4 (n % 4294967296).toNat) = n := by
  unfold beSigned
  rw [beValue_beEncode, beEncode_length]
  norm_num at h ⊢
  split <;> omega

theorem beSigned_beEncode8 (n : Int) (h : -2 ^ 63 ≤ n ∧ n < 2 ^ 63) :
    beSigned (beEncode 8 (n % 18446744073709551616).toNat) = n := by
  unfold beSigned
  rw [beValue_beEncode, beEncode_length]
  norm_num at h ⊢
  split <;> omega

/-- C6. Signed integer writes are big-endian two's complement: for every `int16`,
`int32`, `int64` value `n`, `WriteInt16(n)`, `WriteInt32(n)`, `WriteInt64(n)` append
exactly 2, 4, 8 bytes whose big-endian unsigned value is `n` modulo `2^16`, `2^32`,
`2^64`, and whose signed big-endian reading is `n`.  The largest positive value appends
`7F` followed by `FF` bytes, and `-1` appends only `FF` bytes. -/
theorem C6_signed_writes_twos_complement (wb : WriteBuf) (n16 n32 n64 : Int)
    (h16 : -2 ^ 15 ≤ n16 ∧ n16 < 2 ^ 15) (h32 : -2 ^ 31 ≤ n32 ∧ n32 < 2 ^ 31)
    (h64 : -2 ^ 63 ≤ n64 ∧ n64 < 2 ^ 63) :
    (∃ bs, (WriteInt16 wb n16).buf = wb.buf ++ bs ∧ bs.length = 2 ∧
      (beValue bs : Int) = n16 % 2 ^ 16 ∧ beSigned bs = n16) ∧
    (∃ bs, (WriteInt32 wb n32).buf = wb.buf ++ bs ∧ bs.length = 4 ∧
      (beValue bs : Int) = n32 % 2 ^ 32 ∧ beSigned bs = n32) ∧
    (∃ bs, (WriteInt64 wb n64).buf = wb.buf ++ bs ∧ bs.length = 8 ∧
      (beValue bs : Int) = n64 % 2 ^ 64 ∧ beSigned bs = n64) ∧
    (WriteInt16 wb 32767).buf = wb.buf ++ [0x7F, 0xFF] ∧
    (WriteInt32 wb 2147483647).buf = wb.buf ++ [0x7F, 0xFF, 0xFF, 0xFF] ∧
    (WriteInt64 wb 9223372036854775807).buf =
      wb.buf ++ [0x7F, 0xFF, 0xFF, 0xFF, 0xFF, 0xFF, 0xFF, 0xFF] ∧
    (WriteInt16 wb (-1)).buf = wb.buf ++ [0xFF, 0xFF] ∧
    (WriteInt32 wb (-1)).buf = wb.buf ++ [0xFF, 0xFF, 0xFF, 0xFF] ∧
    (WriteInt64 wb (-1)).buf = wb.buf ++ [0xFF, 0xFF, 0xFF, 0xFF, 0xFF, 0xFF, 0xFF, 0xFF] := by
  refine ⟨⟨_, WriteInt16_buf wb n16, beEncode_length _ _, ?_, beSigned_beEncode2 n16 h16⟩,
    ⟨_, WriteInt32_buf wb n32, beEncode_length _ _, ?_, beSigned_beEncode4 n32 h32⟩,
    ⟨_, WriteInt64_buf wb n64, beEncode_length _ _, ?_, beSigned_beEncode8 n64 h64⟩,
    WriteInt16_buf wb 32767, WriteInt32_buf wb 2147483647,
    WriteInt64_buf wb 9223372036854775807, WriteInt16_buf wb (-1), WriteInt32_buf wb (-1),
    WriteInt64_buf wb (-1)⟩
  · rw [beValue_beEncode]; norm_num; omega
  · rw [beValue_beEncode]; norm_num; omega
  · rw [beValue_beEncode]; norm_num; omega

/-- The statement of C6 at the values -2, -70000 and `-2^40` written to `sampleBuf`. -/
theorem C6_signed_writes_twos_complement_witness :
    ((-2 ^ 15 ≤ (-2 : Int) ∧ (-2 : Int) < 2 ^ 15) ∧
      (-2 ^ 31 ≤ (-70000 : Int) ∧ (-70000 : Int) < 2 ^ 31) ∧
      (-2 ^ 63 ≤ (-1099511627776 : Int) ∧ (-1099511627776 : Int) < 2 ^ 63)) ∧
    (∃ bs, (WriteInt16 sampleBuf (-2)).buf = sampleBuf.buf ++ bs ∧ bs.length = 2 ∧
      (beValue bs : Int) = (-2) % 2 ^ 16 ∧ beSigned bs = -2) ∧
    (∃ bs, (WriteInt32 sampleBuf (-70000)).buf = sampleBuf.buf ++ bs ∧ bs.length = 4 ∧
      (beValue bs : Int) = (-70000) % 2 ^ 32 ∧ beSigned bs = -70000) ∧
    (∃ bs, (WriteInt64 sampleBuf (-1099511627776)).buf = sampleBuf.buf ++ bs ∧
      bs.length = 8 ∧ (beValue bs : Int) = (-1099511627776) % 2 ^ 64 ∧
      beSigned bs = -1099511627776) :=
  ⟨by decide,
    (C6_signed_writes_twos_complement sampleBuf (-2) (-70000) (-1099511627776)
      (by decide) (by decide) (by decide)).1,
    (C6_signed_writes_twos_complement sampleBuf (-2) (-70000) (-1099511627776)
      (by decide) (by decide) (by decide)).2.1,
    (C6_signed_writes_twos_complement sampleBuf (-2) (-70000) (-1099511627776)
      (by decide) (by decide) (by decide)).2.2.1⟩

theorem OnlyAppends_of_append {wb wb1 : WriteBuf} {bs : List Byte}
    (hb : wb1.buf = wb.buf ++ bs) (hs : wb1.sizeIdx = wb.sizeIdx) : OnlyAppends wb wb1 := by
  refine ⟨⟨bs, hb.symm⟩, ?_, hs⟩
  rw [hb, List.length_append]
  omega

/-- C7. Every write call only appends: for each of `WriteByte`, `WriteCString`,
`WriteInt16`, `WriteUint16`, `WriteInt32`, `WriteUint32`, `WriteInt64`, `WriteUint64`,
`WriteBytes` and `Write`, for every buffer state and every argument, the buffer before
the call is an initial segment of the buffer after it, the length does not decrease, and
`sizeIdx` is unchanged; in particular every byte already written keeps its value. -/
theorem C7_writes_only_append (wb : WriteBuf) :
    (∀ b, OnlyAppends wb (WriteByte wb b)) ∧
    (∀ s, OnlyAppends wb (WriteCString wb s)) ∧
    (∀ n, OnlyAppends wb (WriteInt16 wb n)) ∧
    (∀ n, OnlyAppends wb (WriteUint16 wb n).1) ∧
    (∀ n, OnlyAppends wb (WriteInt32 wb n)) ∧
    (∀ n, OnlyAppends wb (WriteUint32 wb n).1) ∧
    (∀ n, OnlyAppends wb (WriteInt64 wb n)) ∧
    (∀ n, OnlyAppends wb (WriteUint64 wb n).1) ∧
    (∀ b, OnlyAppends wb (WriteBytes wb b)) ∧
    (∀ b, OnlyAppends wb (Write wb b).1) ∧
    (∀ (op : AppendOp) (i : Nat) (b : Byte), wb.buf[i]? = some b → (op.run wb).buf[i]? = some b) :=
  ⟨fun b => OnlyAppends_of_append (AppendOp.run_buf wb (.WriteByte b)) rfl,
   fun s => OnlyAppends_of_append (AppendOp.run_buf wb (.WriteCString s)) rfl,
   fun n => OnlyAppends_of_append (AppendOp.run_buf wb (.WriteInt16 n)) rfl,
   fun n => OnlyAppends_of_append (AppendOp.run_buf wb (.WriteUint16 n)) rfl,
   fun n => OnlyAppends_of_append (AppendOp.run_buf wb (.WriteInt32 n)) rfl,
   fun n => OnlyAppends_of_append (AppendOp.run_buf wb (.WriteUint32 n)) rfl,
   fun n => OnlyAppends_of_append (AppendOp.run_buf wb (.WriteInt64 n)) rfl,
   fun n => OnlyAppends_of_append (AppendOp.run_buf wb (.WriteUint64 n)) rfl,
   fun b => OnlyAppends_of_append (AppendOp.run_buf wb (.WriteBytes b)) rfl,
   fun b => OnlyAppends_of_append (AppendOp.run_buf wb (.Write b)) rfl,
   fun op i b h => by
     rw [AppendOp.run_buf]
     exact List.getElem?_append_left (List.getElem?_eq_some.1 h).1 ▸ h⟩

/-- The statement of C7 for a text and a 64-bit integer written to `sampleBuf`, whose
first byte, the tag `'Q'`, stays in place. -/
theorem C7_writes_only_append_witness :
    OnlyAppends sampleBuf (WriteCString sampleBuf (ascii "x")) ∧
    OnlyAppends sampleBuf (WriteUint64 sampleBuf 5).1 ∧
    sampleBuf.buf[0]? = some 81 ∧
    ((AppendOp.WriteInt16 (-2)).run sampleBuf).buf[0]? = some 81 :=
  ⟨(C7_writes_only_append sampleBuf).2.1 (ascii "x"),
    (C7_writes_only_append sampleBuf).2.2.2.2.2.2.2.1 5,
    by decide,
    (C7_writes_only_append sampleBuf).2.2.2.2.2.2.2.2.2.2 (.WriteInt16 (-2)) 0 81 (by decide)⟩

/-! ## Size patches -/

theorem PutUint32_length (buf out : List Byte) (off v : Nat)
    (h : PutUint32 buf off v = some out) : out.length = buf.length := by
  unfold PutUint32 at h
  split at h
  · cases h; simp
  · cases h

theorem PutUint32_outside (buf out : List Byte) (off v : Nat)
    (h : PutUint32 buf off v = some out) : SameOutsideSlot off buf out := by
  unfold PutUint32 at h
  split at h
  · cases h
    intro i hi
    rw [List.getElem?_set_ne (by omega), List.getElem?_set_ne (by omega),
      List.getElem?_set_ne (by omega), List.getElem?_set_ne (by omega)]
  · cases h

theorem PutUint32_slotAt (buf : List Byte) (off v : Nat) (h : off + 4 ≤ buf.length) :
    ∃ out, PutUint32 buf off v = some out ∧ slotAt off out = bigEndian32 v := by
  refine ⟨_, PutUint32_eq buf off v h, ?_⟩
  have h1 : (buf.take off).length = off := by simp; omega
  have h2 : (bigEndian32 v).length = 4 := rfl
  unfold slotAt
  rw [List.append_assoc, List.drop_left' h1, List.take_left' h2]

theorem patch_spec (wb : WriteBuf) (p v : Nat) (h : p + 4 ≤ wb.buf.length) :
    ∃ wb1, (PutUint32 wb.buf p v).map (fun b => { wb with buf := b }) = some wb1 ∧
      slotAt p wb1.buf = bigEndian32 v ∧ wb1.buf.length = wb.buf.length ∧
      SameOutsideSlot p wb.buf wb1.buf ∧ wb1.sizeIdx = wb.sizeIdx ∧
      wb1.convBuf = wb.convBuf := by
  obtain ⟨out, h1, h2⟩ := PutUint32_slotAt wb.buf p v h
  exact ⟨{ wb with buf := out }, by rw [h1]; rfl, h2, PutUint32_length _ _ _ _ h1,
    PutUint32_outside _ _ _ _ h1, rfl, rfl⟩

/-- C8. For every buffer state with `sizeIdx + 4 <= len(buf)`, `closeMsg` succeeds and
writes the four-byte big-endian encoding of `len(buf) - sizeIdx` into the bytes
`[sizeIdx, sizeIdx+4)` (it reads back as that number when it is below `2^32`), and
changes nothing else: the buffer length, `sizeIdx`, the tag byte at `sizeIdx - 1`, every
byte outside the slot and the scratch array are unchanged. -/
theorem C8_closeMsg_patches_length_slot (wb : WriteBuf)
    (h : wb.sizeIdx + 4 ≤ wb.buf.length) :
    ∃ wb1, closeMsg wb = some wb1 ∧
      slotAt wb.sizeIdx wb1.buf = beEncode 4 (wb.buf.length - wb.sizeIdx) ∧
      (wb.buf.length - wb.sizeIdx < 2 ^ 32 →
        beValue (slotAt wb.sizeIdx wb1.buf) = wb.buf.length - wb.sizeIdx) ∧
      wb1.buf.length = wb.buf.length ∧
      wb1.sizeIdx = wb.sizeIdx ∧
      (1 ≤ wb.sizeIdx → wb1.buf[wb.sizeIdx - 1]? = wb.buf[wb.sizeIdx - 1]?) ∧
      SameOutsideSlot wb.sizeIdx wb.buf wb1.buf ∧
      wb1.convBuf = wb.convBuf := by
  obtain ⟨wb1, h1, h2, h3, h4, h5, h6⟩ := patch_spec wb wb.sizeIdx
    (uint32 ((wb.buf.length : Int) - (wb.sizeIdx : Int))) h
  have hc : ((wb.buf.length : Int) - (wb.sizeIdx : Int)) =
      ((wb.buf.length - wb.sizeIdx : Nat) : Int) := by omega
  rw [hc, bigEndian32_uint32] at h2
  refine ⟨wb1, h1, h2, ?_, h3, h5, ?_, h4, h6⟩
  · intro hlt
    rw [h2, beValue_beEncode]
    exact Nat.mod_eq_of_lt (by norm_num at hlt ⊢; exact hlt)
  · intro h1le
    exact h4 _ (Or.inl (by omega))

/-- The statement of C8 at `sampleBuf`, whose open message has 13 bytes from the length
slot on. -/
theorem C8_closeMsg_patches_length_slot_witness :
    sampleBuf.sizeIdx + 4 ≤ sampleBuf.buf.length ∧
    ∃ wb1, closeMsg sampleBuf = some wb1 ∧
      slotAt sampleBuf.sizeIdx wb1.buf = [0, 0, 0, 13] ∧
      beValue (slotAt sampleBuf.sizeIdx wb1.buf) = 13 ∧
      wb1.buf.length = sampleBuf.buf.length ∧
      wb1.sizeIdx = sampleBuf.sizeIdx ∧
      wb1.buf[sampleBuf.sizeIdx - 1]? = sampleBuf.buf[sampleBuf.sizeIdx - 1]? ∧
      SameOutsideSlot sampleBuf.sizeIdx sampleBuf.buf wb1.buf := by
  obtain ⟨wb1, h1, h2, h3, h4, h5, h6, h7, _⟩ :=
    C8_closeMsg_patches_length_slot sampleBuf (by decide)
  exact ⟨by decide, wb1, h1, h2, h3 (by decide), h4, h5, h6 (by decide), h7⟩

theorem reserve_runOps_buf (wb : WriteBuf) (ops : List AppendOp) :
    (runOps (reserveSize wb).1 ops).buf = wb.buf ++ [0, 0, 0, 0] ++ payloadOf ops := by
  rw [runOps_buf]
  rfl

/-- C9. Reserve, write, then measure: for every buffer state, `reserveSize` returns the
buffer length before the call and appends four zero bytes (leaving `sizeIdx` alone); if
append operations then add `k` bytes and `setComputedSize(p)` is called with the returned
position `p`, the call succeeds, the bytes `[p, p+4)` become the big-endian encoding of
`k` (the bytes after the slot only, without the four bytes of the slot itself), and the
buffer length and every byte outside `[p, p+4)` are unchanged. -/
theorem C9_reserve_then_measure (wb : WriteBuf) (ops : List AppendOp) :
    (reserveSize wb).2 = wb.buf.length ∧
    (reserveSize wb).1.buf = wb.buf ++ [0, 0, 0, 0] ∧
    (reserveSize wb).1.sizeIdx = wb.sizeIdx ∧
    (runOps (reserveSize wb).1 ops).buf.length - (reserveSize wb).1.buf.length =
      (payloadOf ops).length ∧
    ∃ wb3, setComputedSize (runOps (reserveSize wb).1 ops) (reserveSize wb).2 = some wb3 ∧
      slotAt (reserveSize wb).2 wb3.buf = beEncode 4 (payloadOf ops).length ∧
      ((payloadOf ops).length < 2 ^ 32 →
        beValue (slotAt (reserveSize wb).2 wb3.buf) = (payloadOf ops).length) ∧
      wb3.buf.length = (runOps (reserveSize wb).1 ops).buf.length ∧
      SameOutsideSlot (reserveSize wb).2 (runOps (reserveSize wb).1 ops).buf wb3.buf ∧
      wb3.buf = wb.buf ++ beEncode 4 (payloadOf ops).length ++ payloadOf ops ∧
      wb3.sizeIdx = wb.sizeIdx := by
  have hb := reserve_runOps_buf wb ops
  have hlen : (runOps (reserveSize wb).1 ops).buf.length =
      wb.buf.length + 4 + (payloadOf ops).length := by
    rw [hb]; simp; omega
  have hp : (reserveSize wb).2 = wb.buf.length := rfl
  refine ⟨rfl, rfl, rfl, ?_, ?_⟩
  · rw [hlen]
    show wb.buf.length + 4 + (payloadOf ops).length - (wb.buf ++ [0, 0, 0, 0]).length = _
    simp
  · obtain ⟨wb3, h1, h2, h3, h4, h5, -⟩ := patch_spec (runOps (reserveSize wb).1 ops)
      (reserveSize wb).2
      (uint32 (((runOps (reserveSize wb).1 ops).buf.length : Int) -
        ((reserveSize wb).2 : Int) - 4)) (by rw [hlen, hp]; omega)
    have hc : (((runOps (reserveSize wb).1 ops).buf.length : Int) -
        ((reserveSize wb).2 : Int) - 4) = (((payloadOf ops).length : Nat) : Int) := by
      rw [hlen, hp]; omega
    rw [hc, bigEndian32_uint32] at h2
    refine ⟨wb3, h1, h2, ?_, h3, h4, ?_, ?_⟩
    · intro hlt
      rw [h2, beValue_beEncode]
      exact Nat.mod_eq_of_lt (by norm_num at hlt ⊢; exact hlt)
    · have h1b := h1
      unfold setComputedSize at h1b
      rw [hc, hb, hp, PutUint32_slot wb.buf [0, 0, 0, 0] (payloadOf ops) _ rfl,
        bigEndian32_uint32] at h1b
      cases h1b
      rfl
    · rw [h5, runOps_sizeIdx]
      rfl

/-- The statement of C9 when the operations `sampleOps`, nine bytes in all, follow a
`reserveSize` on `sampleBuf`. -/
theorem C9_reserve_then_measure_witness :
    (reserveSize sampleBuf).2 = 14 ∧
    ∃ wb3, setComputedSize (runOps (reserveSize sampleBuf).1 sampleOps)
        (reserveSize sampleBuf).2 = some wb3 ∧
      slotAt 14 wb3.buf = [0, 0, 0, 9] ∧
      beValue (slotAt 14 wb3.buf) = 9 ∧
      wb3.buf.length = (runOps (reserveSize sampleBuf).1 sampleOps).buf.length ∧
      SameOutsideSlot 14 (runOps (reserveSize sampleBuf).1 sampleOps).buf wb3.buf := by
  obtain ⟨h0, _, _, _, wb3, h1, h2, h3, h4, h5, _⟩ :=
    C9_reserve_then_measure sampleBuf sampleOps
  exact ⟨by decide, wb3, h1, h2, h3 (by decide), h4, h5⟩

/-- C10. Explicit size patch: for every position `p` with `p + 4 <= len(buf)` and every
`size` (negative values such as `-1` and values unrelated to the bytes written after
the slot included), `setSize(p, size)` succeeds and sets the bytes `[p, p+4)` to the
big-endian two's complement encoding of `size`, whose unsigned value is
`size mod 2^32` and whose signed reading is `size` for every `int32`; the buffer length
and every byte outside `[p, p+4)` are unchanged. -/
theorem C10_setSize_patches_slot (wb : WriteBuf) (p : Nat) (size : Int)
    (h : p + 4 ≤ wb.buf.length) :
    ∃ wb1, setSize wb p size = some wb1 ∧
      slotAt p wb1.buf = beEncode 4 (size % 2 ^ 32).toNat ∧
      (beValue (slotAt p wb1.buf) : Int) = size % 2 ^ 32 ∧
      (-2 ^ 31 ≤ size ∧ size < 2 ^ 31 → beSigned (slotAt p wb1.buf) = size) ∧
      (size = -1 → slotAt p wb1.buf = [0xFF, 0xFF, 0xFF, 0xFF]) ∧
      wb1.buf.length = wb.buf.length ∧
      SameOutsideSlot p wb.buf wb1.buf ∧
      wb1.sizeIdx = wb.sizeIdx ∧ wb1.convBuf = wb.convBuf := by
  obtain ⟨wb1, h1, h2, h3, h4, h5, h6⟩ := patch_spec wb p (uint32 size) h
  rw [bigEndian32_eq] at h2
  have hu : uint32 size = (size % 2 ^ 32).toNat := by norm_num [uint32]
  refine ⟨wb1, h1, hu ▸ h2, ?_, ?_, ?_, h3, h4, h5, h6⟩
  · rw [h2, beValue_beEncode]; unfold uint32; norm_num; omega
  · intro hr
    rw [h2]
    exact beSigned_beEncode4 size hr
  · intro hm
    rw [h2, hm]
    decide

/-- The statement of C10 when the length slot of `sampleBuf` is set to `-1`. -/
theorem C10_setSize_patches_slot_witness :
    1 + 4 ≤ sampleBuf.buf.length ∧
    ∃ wb1, setSize sampleBuf 1 (-1) = some wb1 ∧
      slotAt 1 wb1.buf = [0xFF, 0xFF, 0xFF, 0xFF] ∧
      beSigned (slotAt 1 wb1.buf) = -1 ∧
      wb1.buf.length = sampleBuf.buf.length ∧
      SameOutsideSlot 1 sampleBuf.buf wb1.buf := by
  obtain ⟨wb1, h1, _, _, h4, h5, h6, h7, _⟩ :=
    C10_setSize_patches_slot sampleBuf 1 (-1) (by decide)
  exact ⟨by decide, wb1, h1, h5 rfl, h4 (by decide), h6, h7⟩

/-! ## Null-terminated text -/

theorem takeWhile_ne_zero_append (s rest : List Byte) (hs : (0 : Byte) ∉ s) :
    (s ++ 0 :: rest).takeWhile (fun b => b ≠ 0) = s := by
  induction s with
  | nil => simp
  | cons a s ih =>
    have ha : a ≠ 0 := fun h => hs (h ▸ List.mem_cons_self _ _)
    have hs2 : (0 : Byte) ∉ s := fun h => hs (List.mem_cons_of_mem _ h)
    rw [List.cons_append, List.takeWhile_cons_of_pos (by simpa using ha), ih hs2]

/-- C11. For every text `s`, `WriteCString(s)` appends exactly the bytes of `s` followed by
one zero byte: the buffer grows by `len(s) + 1` and ends in 0.  When `s` contains no zero
byte, the first zero byte at or after the old end of the buffer is that terminator, so the
bytes between the old end and the first zero are exactly `s`. -/
theorem C11_WriteCString_appends_terminated_text (wb : WriteBuf) (s : GoString) :
    (WriteCString wb s).buf = wb.buf ++ s ++ [0] ∧
    (WriteCString wb s).buf.length = wb.buf.length + (s.length + 1) ∧
    (WriteCString wb s).buf.getLast? = some 0 ∧
    ((0 : Byte) ∉ s →
      ((WriteCString wb s).buf.drop wb.buf.length).takeWhile (fun b => b ≠ 0) = s ∧
      (WriteCString wb s).buf[wb.buf.length + s.length]? = some 0 ∧
      ∀ i, wb.buf.length ≤ i → i < wb.buf.length + s.length →
        (WriteCString wb s).buf[i]? ≠ some 0) := by
  have hb : (WriteCString wb s).buf = wb.buf ++ s ++ [0] := rfl
  refine ⟨hb, ?_, ?_, ?_⟩
  · rw [hb]; simp
  · rw [hb]; simp
  · intro hs
    rw [hb]
    refine ⟨?_, ?_, ?_⟩
    · rw [List.append_assoc, List.drop_left]
      exact takeWhile_ne_zero_append s [] hs
    · rw [← List.length_append, List.getElem?_append_right (Nat.le_refl _)]
      simp
    · intro i h1 h2 h3
      rw [List.getElem?_append_left (by simp; omega),
        List.getElem?_append_right h1] at h3
      exact hs (List.getElem?_mem h3)

/-- The statement of C11 for the text `ab` written to `sampleBuf`. -/
theorem C11_WriteCString_appends_terminated_text_witness :
    (0 : Byte) ∉ ascii "ab" ∧
    (WriteCString sampleBuf (ascii "ab")).buf = sampleBuf.buf ++ ascii "ab" ++ [0] ∧
    ((WriteCString sampleBuf (ascii "ab")).buf.drop sampleBuf.buf.length).takeWhile
      (fun b => b ≠ 0) = ascii "ab" ∧
    (WriteCString sampleBuf (ascii "ab")).buf[sampleBuf.buf.length + (ascii "ab").length]? =
      some 0 :=
  ⟨by decide,
    (C11_WriteCString_appends_terminated_text sampleBuf (ascii "ab")).1,
    ((C11_WriteCString_appends_terminated_text sampleBuf (ascii "ab")).2.2.2 (by decide)).1,
    ((C11_WriteCString_appends_terminated_text sampleBuf (ascii "ab")).2.2.2 (by decide)).2.1⟩

/-! ## Server error rendering -/

/-- C12. For every `PgError` record, `Error()` returns exactly
`Severity ++ ": " ++ Message ++ " (SQLSTATE " ++ Code ++ ")"`; two records with the same
severity, message and code render alike whatever their other fields hold; severity
`ERROR`, code `23505` and message `Something failed` render as
`ERROR: Something failed (SQLSTATE 23505)`. -/
theorem C12_PgError_Error_rendering (pe : PgError) :
    pe.Error = pe.Severity ++ ascii ": " ++ pe.Message ++ ascii " (SQLSTATE " ++ pe.Code ++
      ascii ")" ∧
    pe.Error = pe.Severity ++ [58, 32] ++ pe.Message ++
      [32, 40, 83, 81, 76, 83, 84, 65, 84, 69, 32] ++ pe.Code ++ [41] ∧
    (∀ other : PgError, other.Severity = pe.Severity → other.Message = pe.Message →
      other.Code = pe.Code → other.Error = pe.Error) ∧
    (pe.Severity = ascii "ERROR" → pe.Code = ascii "23505" →
      pe.Message = ascii "Something failed" →
      pe.Error = ascii "ERROR: Something failed (SQLSTATE 23505)") := by
  refine ⟨rfl, rfl, ?_, ?_⟩
  · intro other h1 h2 h3
    simp only [PgError.Error, h1, h2, h3]
  · intro h1 h2 h3
    simp only [PgError.Error, h1, h2, h3]
    decide

/-- The statement of C12 at `sampleError`, and at the same record with a detail and a line
number added. -/
theorem C12_PgError_Error_rendering_witness :
    sampleError.Error = ascii "ERROR: Something failed (SQLSTATE 23505)" ∧
    ({ sampleError with Detail := ascii "Key (id)=(1) already exists.", Line := 42 } :
      PgError).Error = sampleError.Error :=
  ⟨(C12_PgError_Error_rendering sampleError).2.2.2 rfl rfl rfl,
   (C12_PgError_Error_rendering sampleError).2.2.1 _ rfl rfl rfl⟩

/-! ## Results of the write calls -/

/-- C13. Integer and byte writes cannot fail: for every buffer state and argument,
`WriteUint16`, `WriteUint32` and `WriteUint64` return `(2, nil)`, `(4, nil)` and `(8, nil)`
and `Write(b)` returns `(len(b), nil)`; the returned count is the number of bytes by which
the buffer grew and the returned error is `nil`. -/
theorem C13_integer_and_byte_writes_cannot_fail (wb : WriteBuf) (n16 n32 n64 : Nat)
    (b : List Byte) :
    ((WriteUint16 wb n16).2 = (2, none) ∧
      (WriteUint16 wb n16).1.buf.length = wb.buf.length + (WriteUint16 wb n16).2.1) ∧
    ((WriteUint32 wb n32).2 = (4, none) ∧
      (WriteUint32 wb n32).1.buf.length = wb.buf.length + (WriteUint32 wb n32).2.1) ∧
    ((WriteUint64 wb n64).2 = (8, none) ∧
      (WriteUint64 wb n64).1.buf.length = wb.buf.length + (WriteUint64 wb n64).2.1) ∧
    ((Write wb b).2 = (b.length, none) ∧
      (Write wb b).1.buf.length = wb.buf.length + (Write wb b).2.1) := by
  refine ⟨⟨rfl, ?_⟩, ⟨rfl, ?_⟩, ⟨rfl, ?_⟩, ⟨rfl, ?_⟩⟩
  · rw [WriteUint16_buf, List.length_append, beEncode_length]; rfl
  · rw [WriteUint32_buf, List.length_append, beEncode_length]; rfl
  · rw [WriteUint64_buf, List.length_append, beEncode_length]; rfl
  · show (wb.buf ++ b).length = _
    rw [List.length_append]; rfl

/-! ## The empty message -/

/-- C15. A message with an empty payload has length 4: for every tag `t` and every prior
content of the connection buffer `c.wbuf`, `newWriteBuf(c, t)` yields exactly
`[t, 0, 0, 0, 0]` with `sizeIdx = 1` (the old content is not kept), and a following
`closeMsg` yields exactly `[t, 0, 0, 0, 4]`. -/
theorem C15_empty_message_has_length_four (c : Conn) (t : Byte) :
    (newWriteBuf c t).buf = [t, 0, 0, 0, 0] ∧
    (newWriteBuf c t).sizeIdx = 1 ∧
    ∃ wb, closeMsg (newWriteBuf c t) = some wb ∧ wb.buf = [t, 0, 0, 0, 4] ∧ wb.sizeIdx = 1 := by
  refine ⟨rfl, rfl, _, closeMsg_first c t [], ?_, rfl⟩
  show frame t (payloadOf []) = _
  rfl

/-! ## Closing twice -/

theorem closeMsg_closeMsg (wb : WriteBuf) (h : wb.sizeIdx + 4 ≤ wb.buf.length) :
    ∃ wb1, closeMsg wb = some wb1 ∧ closeMsg wb1 = some wb1 := by
  refine ⟨_, closeMsg_eq wb h, ?_⟩
  have h4 : (beEncode 4 (wb.buf.length - wb.sizeIdx)).length = 4 := beEncode_length _ _
  have ht : (wb.buf.take wb.sizeIdx).length = wb.sizeIdx := by
    rw [List.length_take]; omega
  have hl : (wb.buf.take wb.sizeIdx ++ beEncode 4 (wb.buf.length - wb.sizeIdx) ++
      wb.buf.drop (wb.sizeIdx + 4)).length = wb.buf.length := by
    simp only [List.length_append, ht, h4, List.length_drop]; omega
  rw [closeMsg_eq _ (by show wb.sizeIdx + 4 ≤ _; rw [hl]; exact h)]
  simp only [hl]
  have h1 : (wb.buf.take wb.sizeIdx ++ beEncode 4 (wb.buf.length - wb.sizeIdx) ++
      wb.buf.drop (wb.sizeIdx + 4)).take wb.sizeIdx = wb.buf.take wb.sizeIdx := by
    rw [List.append_assoc, List.take_left' ht]
  have h2 : (wb.buf.take wb.sizeIdx ++ beEncode 4 (wb.buf.length - wb.sizeIdx) ++
      wb.buf.drop (wb.sizeIdx + 4)).drop (wb.sizeIdx + 4) = wb.buf.drop (wb.sizeIdx + 4) := by
    rw [List.drop_left' (by rw [List.length_append, ht, h4])]
  rw [h1, h2]

/-- C17. `closeMsg` is idempotent: for every buffer state with
`sizeIdx + 4 <= len(buf)`, a second `closeMsg` leaves the state of the first unchanged, so
calling it twice gives the same buffer and `sizeIdx` as calling it once; consequently
`closeMsg` followed by `startMsg(t)` gives the same state as `startMsg(t)` alone. -/
theorem C17_closeMsg_idempotent (wb : WriteBuf) (h : wb.sizeIdx + 4 ≤ wb.buf.length) :
    (∃ wb1, closeMsg wb = some wb1 ∧ closeMsg wb1 = some wb1 ∧
      wb1.buf.length = wb.buf.length ∧ wb1.sizeIdx = wb.sizeIdx) ∧
    (closeMsg wb).bind closeMsg = closeMsg wb ∧
    ∀ t, (closeMsg wb).bind (fun closed => startMsg closed t) = startMsg wb t := by
  obtain ⟨wb1, h1, h2⟩ := closeMsg_closeMsg wb h
  obtain ⟨wb2, h3, -, h4, -, h5, -⟩ := patch_spec wb wb.sizeIdx
    (uint32 ((wb.buf.length : Int) - (wb.sizeIdx : Int))) h
  have h12 : wb2 = wb1 := Option.some.inj (h3.symm.trans h1)
  subst h12
  refine ⟨⟨wb2, h1, h2, h4, h5⟩, ?_, ?_⟩
  · rw [h1, Option.some_bind, h2]
  · intro t
    rw [h1, Option.some_bind]
    unfold startMsg
    rw [h1, h2]

/-- The statement of C17 at `sampleBuf` and the tag `'Z'`. -/
theorem C17_closeMsg_idempotent_witness :
    sampleBuf.sizeIdx + 4 ≤ sampleBuf.buf.length ∧
    (closeMsg sampleBuf).bind closeMsg = closeMsg sampleBuf ∧
    (closeMsg sampleBuf).bind (fun closed => startMsg closed 90) = startMsg sampleBuf 90 :=
  ⟨by decide, (C17_closeMsg_idempotent sampleBuf (by decide)).2.1,
    (C17_closeMsg_idempotent sampleBuf (by decide)).2.2 90⟩

/-! ## Message type constants -/

theorem filter_eq_length_le_one {α β : Type} [DecidableEq β] (f : α → β) (v : β)
    (l : List α) (h : (l.map f).Nodup) : (l.filter (fun x => decide (f x = v))).length ≤ 1 := by
  induction l with
  | nil => simp
  | cons a l ih =>
    rw [List.map_cons, List.nodup_cons] at h
    by_cases hv : f a = v
    · have hnil : l.filter (fun x => decide (f x = v)) = [] := by
        rw [List.filter_eq_nil_iff]
        intro x hx hfx
        exact h.1 (List.mem_map.2 ⟨x, hx, by rw [hv]; simpa using hfx⟩)
      rw [List.filter_cons_of_pos (by simpa using hv), hnil]
      simp
    · rw [List.filter_cons_of_neg (by simpa using hv)]
      exact ih h.2

/-- C19. The twenty message type constants are pairwise distinct and each has a value in
`1..255`, so each fits in one byte, the bytes are pairwise distinct, and a tag byte
selects at most one message kind. -/
theorem C19_message_types_distinct_bytes :
    messageTypes.length = 20 ∧
    messageTypes.Nodup ∧
    (∀ k ∈ messageTypes, 1 ≤ k.toNat ∧ k.toNat ≤ 255) ∧
    (messageTypes.map (fun k => byte k.toNat)).Nodup ∧
    (∀ tag : Byte, (kindsOfTag tag).length ≤ 1) := by
  refine ⟨rfl, by decide, by decide, by decide, ?_⟩
  intro tag
  exact filter_eq_length_le_one (fun k => k.toNat) tag.val messageTypes (by decide)

/-- The statement of C19 at the constant `dataRow` and the tag byte `'D'`. -/
theorem C19_message_types_distinct_bytes_witness :
    dataRow ∈ messageTypes ∧ (1 ≤ dataRow.toNat ∧ dataRow.toNat ≤ 255) ∧
    (kindsOfTag 68).length ≤ 1 ∧ kindsOfTag 68 = [dataRow] :=
  ⟨by decide, C19_message_types_distinct_bytes.2.2.1 dataRow (by decide),
    C19_message_types_distinct_bytes.2.2.2.2 68, by decide⟩

/-! ## The error/notice decoder -/

theorem readCString_append (text rest : List Byte) (h : (0 : Byte) ∉ text) :
    readCString (text ++ 0 :: rest) = some (text, rest) := by
  induction text with
  | nil => simp [readCString]
  | cons a text ih =>
    have ha : a ≠ 0 := fun e => h (e ▸ List.mem_cons_self _ _)
    have ht : (0 : Byte) ∉ text := fun e => h (List.mem_cons_of_mem _ e)
    simp [readCString, ha, ih ht]

theorem setField_unknown (parseInt32 : GoString → Int) (pe : PgError) (code : Byte)
    (text : GoString) (h : code ∉ knownFieldCodes) :
    pe.setField parseInt32 code text = pe := by
  simp only [knownFieldCodes, List.mem_cons, List.mem_singleton, List.not_mem_nil, or_false,
    not_or] at h
  obtain ⟨h1, h2, h3, h4, h5, h6, h7, h8, h9, h10, h11, h12, h13, h14, h15, h16, h17⟩ := h
  simp only [PgError.setField, h1, h2, h3, h4, h5, h6, h7, h8, h9, h10, h11, h12, h13, h14,
    h15, h16, h17, if_false]

/-- The record after the entries of a payload have been applied in order. -/
theorem decodeErrorAux_entries (parseInt32 : GoString → Int) (entries : List (Byte × GoString))
    (trailing : List Byte) (h : WellFormedEntries entries) (fuel : Nat)
    (hfuel : entries.length + 1 ≤ fuel) (pe : PgError) :
    decodeErrorAux parseInt32 fuel
        ((entries.map (fun e => e.1 :: (e.2 ++ [0]))).flatten ++ 0 :: trailing) pe =
      some (entries.foldl (fun r e => r.setField parseInt32 e.1 e.2) pe) := by
  induction entries generalizing fuel pe with
  | nil =>
    cases fuel with
    | zero => omega
    | succ fuel => simp [decodeErrorAux]
  | cons e entries ih =>
    cases fuel with
    | zero => omega
    | succ fuel =>
      obtain ⟨code, text⟩ := e
      have he := h (code, text) (List.mem_cons_self _ _)
      have hrest : WellFormedEntries entries := fun x hx => h x (List.mem_cons_of_mem _ hx)
      have hshape : (((code, text) :: entries).map (fun e => e.1 :: (e.2 ++ [0]))).flatten ++
          0 :: trailing = code :: (text ++ 0 ::
            ((entries.map (fun e => e.1 :: (e.2 ++ [0]))).flatten ++ 0 :: trailing)) := by
        simp
      rw [hshape]
      simp only [decodeErrorAux, if_neg he.1, readCString_append _ _ he.2, List.foldl_cons]
      exact ih hrest fuel (by simpa using hfuel) _

theorem foldl_setField_knownEntries (parseInt32 : GoString → Int)
    (entries : List (Byte × GoString)) (pe : PgError) :
    (knownEntries entries).foldl (fun r e => r.setField parseInt32 e.1 e.2) pe =
      entries.foldl (fun r e => r.setField parseInt32 e.1 e.2) pe := by
  induction entries generalizing pe with
  | nil => rfl
  | cons e entries ih =>
    by_cases hk : e.1 ∈ knownFieldCodes
    · have : knownEntries (e :: entries) = e :: knownEntries entries := by
        simp [knownEntries, hk]
      rw [this, List.foldl_cons, List.foldl_cons, ih]
    · have : knownEntries (e :: entries) = knownEntries entries := by
        simp [knownEntries, hk]
      rw [this, List.foldl_cons, setField_unknown _ _ _ _ hk, ih]

theorem decodeError_entries (parseInt32 : GoString → Int) (entries : List (Byte × GoString))
    (trailing : List Byte) (h : WellFormedEntries entries) :
    decodeError parseInt32 (errorPayload entries ++ trailing) =
      some (entries.foldl (fun r e => r.setField parseInt32 e.1 e.2) PgError.zero) := by
  unfold decodeError
  have hshape : errorPayload entries ++ trailing =
      (entries.map (fun e => e.1 :: (e.2 ++ [0]))).flatten ++ 0 :: trailing := by
    simp [errorPayload]
  have hlen : ∀ es : List (Byte × GoString),
      es.length ≤ ((es.map (fun e => e.1 :: (e.2 ++ [0]))).flatten).length := by
    intro es
    induction es with
    | nil => simp
    | cons e es ih =>
      simp only [List.map_cons, List.flatten_cons, List.length_append, List.length_cons] at ih ⊢
      omega
  rw [hshape]
  apply decodeErrorAux_entries _ _ _ h
  have := hlen entries
  simp only [List.length_append, List.length_cons]
  omega

/-- C14. The error/notice decoder tolerates unknown field codes: for every payload made
of entries `[field code][null-terminated text]` and ended by a zero field code (whatever
follows it), decoding succeeds, and the record is the one decoded from the payload with
every entry removed whose field code is not one of S, C, M, D, H, P, p, q, W, s, t, c, d,
n, F, L, R.  This holds for every way of decoding the numeric texts. -/
theorem C14_decoder_ignores_unknown_field_codes (parseInt32 : GoString → Int)
    (entries : List (Byte × GoString)) (trailing : List Byte)
    (h : WellFormedEntries entries) :
    ∃ pe, decodeError parseInt32 (errorPayload entries ++ trailing) = some pe ∧
      decodeError parseInt32 (errorPayload entries) = some pe ∧
      decodeError parseInt32 (errorPayload (knownEntries entries)) = some pe ∧
      (∀ code text, code ∉ knownFieldCodes → pe.setField parseInt32 code text = pe) := by
  have hk : WellFormedEntries (knownEntries entries) :=
    fun e he => h e (List.mem_of_mem_filter he)
  refine ⟨_, decodeError_entries parseInt32 entries trailing h, ?_, ?_, ?_⟩
  · have := decodeError_entries parseInt32 entries [] h
    rwa [List.append_nil] at this
  · have := decodeError_entries parseInt32 (knownEntries entries) [] hk
    rw [List.append_nil, foldl_setField_knownEntries] at this
    exact this
  · intro code text hc
    exact setField_unknown _ _ _ _ hc

/-- The statement of C14 at `sampleEntries`, where an entry with the unknown code `Z`
stands between known ones. -/
theorem C14_decoder_ignores_unknown_field_codes_witness :
    WellFormedEntries sampleEntries ∧
    knownEntries sampleEntries =
      [(fieldCode 'S', ascii "ERROR"), (fieldCode 'C', ascii "23505"),
       (fieldCode 'P', ascii "17"), (fieldCode 'M', ascii "Something failed")] ∧
    ∃ pe, decodeError parseDecimal (errorPayload sampleEntries) = some pe ∧
      decodeError parseDecimal (errorPayload (knownEntries sampleEntries)) = some pe := by
  have hw : WellFormedEntries sampleEntries := by
    unfold WellFormedEntries
    decide
  obtain ⟨pe, _, h2, h3, _⟩ :=
    C14_decoder_ignores_unknown_field_codes parseDecimal sampleEntries [] hw
  exact ⟨hw, by decide, pe, h2, h3⟩

/-! ## The length slot stays in bounds -/

theorem patch_some (wb wb1 : WriteBuf) (p v : Nat)
    (h : (PutUint32 wb.buf p v).map (fun b => { wb with buf := b }) = some wb1) :
    p + 4 ≤ wb.buf.length ∧ wb1.buf.length = wb.buf.length ∧ wb1.sizeIdx = wb.sizeIdx := by
  cases hp : PutUint32 wb.buf p v with
  | none => rw [hp] at h; cases h
  | some out =>
    rw [hp] at h
    cases h
    refine ⟨?_, PutUint32_length _ _ _ _ hp, rfl⟩
    by_contra hlt
    rw [PutUint32_none _ _ _ (by omega)] at hp
    cases hp

theorem SlotInBounds_of_same {wb wb1 : WriteBuf} (h : SlotInBounds wb)
    (hl : wb.buf.length ≤ wb1.buf.length) (hs : wb1.sizeIdx = wb.sizeIdx) : SlotInBounds wb1 := by
  unfold SlotInBounds at h ⊢
  omega

theorem SlotInBounds_append (wb : WriteBuf) (op : AppendOp) (h : SlotInBounds wb) :
    SlotInBounds (op.run wb) :=
  SlotInBounds_of_same h (by rw [AppendOp.run_buf, List.length_append]; omega)
    (AppendOp.run_sizeIdx wb op)

theorem SlotInBounds_closeMsg (wb : WriteBuf) (h : SlotInBounds wb) :
    ∃ wb1, closeMsg wb = some wb1 ∧ SlotInBounds wb1 ∧ wb1.buf.length = wb.buf.length := by
  obtain ⟨wb1, h1, -, h3, -, h5, -⟩ := patch_spec wb wb.sizeIdx
    (uint32 ((wb.buf.length : Int) - (wb.sizeIdx : Int))) h.2
  exact ⟨wb1, h1, SlotInBounds_of_same h (by omega) h5, h3⟩

theorem SlotInBounds_startMsg (wb : WriteBuf) (t : Byte) (h : SlotInBounds wb) :
    ∃ wb1, startMsg wb t = some wb1 ∧ SlotInBounds wb1 ∧
      wb1.buf.length = wb.buf.length + 5 := by
  obtain ⟨wb1, h1, -, h3⟩ := SlotInBounds_closeMsg wb h
  refine ⟨_, by unfold startMsg; rw [h1]; rfl, ?_, ?_⟩
  · unfold SlotInBounds
    simp only [List.length_append, List.length_cons, List.length_nil]
    omega
  · simp only [List.length_append, List.length_cons, List.length_nil]
    omega

theorem SlotInBounds_reserveSize (wb : WriteBuf) (h : SlotInBounds wb) :
    SlotInBounds (reserveSize wb).1 :=
  SlotInBounds_of_same h (by simp [reserveSize]) rfl

theorem SlotInBounds_setComputedSize (wb wb1 : WriteBuf) (p : Nat) (h : SlotInBounds wb)
    (hr : setComputedSize wb p = some wb1) : SlotInBounds wb1 := by
  obtain ⟨-, h2, h3⟩ := patch_some wb wb1 p _ hr
  exact SlotInBounds_of_same h (by omega) h3

theorem SlotInBounds_setSize (wb wb1 : WriteBuf) (p : Nat) (size : Int) (h : SlotInBounds wb)
    (hr : setSize wb p size = some wb1) : SlotInBounds wb1 := by
  obtain ⟨-, h2, h3⟩ := patch_some wb wb1 p _ hr
  exact SlotInBounds_of_same h (by omega) h3

theorem run_length_le (s s1 : BuilderState) (call : BuilderCall)
    (hi : SlotInBounds s.wb) (hr : call.run s = some s1) :
    SlotInBounds s1.wb ∧ s.wb.buf.length ≤ s1.wb.buf.length ∧
      (∀ p ∈ s1.reserved, p ∈ s.reserved ∨ p + 4 ≤ s1.wb.buf.length) := by
  cases call with
  | append op =>
    cases hr
    refine ⟨SlotInBounds_append _ _ hi, ?_, fun p hp => Or.inl hp⟩
    show s.wb.buf.length ≤ (op.run s.wb).buf.length
    rw [AppendOp.run_buf, List.length_append]; omega
  | startMsg t =>
    obtain ⟨wb1, h1, h2, h3⟩ := SlotInBounds_startMsg s.wb t hi
    simp only [BuilderCall.run, h1, Option.map_some'] at hr
    cases hr
    exact ⟨h2, by show _ ≤ wb1.buf.length; omega, fun p hp => Or.inl hp⟩
  | closeMsg =>
    obtain ⟨wb1, h1, h2, h3⟩ := SlotInBounds_closeMsg s.wb hi
    simp only [BuilderCall.run, h1, Option.map_some'] at hr
    cases hr
    exact ⟨h2, by show _ ≤ wb1.buf.length; omega, fun p hp => Or.inl hp⟩
  | reserveSize =>
    cases hr
    refine ⟨SlotInBounds_reserveSize _ hi, by simp [reserveSize], ?_⟩
    intro p hp
    rcases List.mem_cons.1 hp with rfl | hp
    · right; simp [reserveSize]
    · exact Or.inl hp
  | setComputedSize p =>
    cases hw : Pgx.setComputedSize s.wb p with
    | none => simp [BuilderCall.run, hw] at hr
    | some wb1 =>
      simp only [BuilderCall.run, hw, Option.map_some'] at hr
      cases hr
      obtain ⟨-, h2, -⟩ := patch_some s.wb wb1 p _ hw
      exact ⟨SlotInBounds_setComputedSize _ _ _ hi hw, by show _ ≤ wb1.buf.length; omega,
        fun q hq => Or.inl hq⟩
  | setSize p size =>
    cases hw : Pgx.setSize s.wb p size with
    | none => simp [BuilderCall.run, hw] at hr
    | some wb1 =>
      simp only [BuilderCall.run, hw, Option.map_some'] at hr
      cases hr
      obtain ⟨-, h2, -⟩ := patch_some s.wb wb1 p _ hw
      exact ⟨SlotInBounds_setSize _ _ _ _ hi hw, by show _ ≤ wb1.buf.length; omega,
        fun q hq => Or.inl hq⟩

theorem Reachable_invariant (s : BuilderState) (h : Reachable s) :
    SlotInBounds s.wb ∧ ∀ p ∈ s.reserved, p + 4 ≤ s.wb.buf.length := by
  induction h with
  | start c t => exact ⟨⟨Nat.le_refl 1, by simp [newWriteBuf]⟩, fun p hp => by simp at hp⟩
  | call s s1 call _ _ hr ih =>
    obtain ⟨h1, h2, h3⟩ := run_length_le s s1 call ih.1 hr
    refine ⟨h1, fun p hp => ?_⟩
    rcases h3 p hp with hp | hp
    · have := ih.2 p hp
      omega
    · exact hp

theorem permitted_run_some (s : BuilderState) (call : BuilderCall)
    (hi : SlotInBounds s.wb) (hres : ∀ p ∈ s.reserved, p + 4 ≤ s.wb.buf.length)
    (hp : call.Permitted s) : ∃ s1, call.run s = some s1 := by
  cases call with
  | append op => exact ⟨_, rfl⟩
  | startMsg t =>
    obtain ⟨wb1, h1, -⟩ := SlotInBounds_startMsg s.wb t hi
    exact ⟨_, by simp only [BuilderCall.run, h1]; rfl⟩
  | closeMsg =>
    obtain ⟨wb1, h1, -⟩ := SlotInBounds_closeMsg s.wb hi
    exact ⟨_, by simp only [BuilderCall.run, h1]; rfl⟩
  | reserveSize => exact ⟨_, rfl⟩
  | setComputedSize p =>
    obtain ⟨wb1, h1, -⟩ := patch_spec s.wb p
      (uint32 ((s.wb.buf.length : Int) - (p : Int) - 4)) (hres p hp)
    exact ⟨{ s with wb := wb1 }, by
      show (Pgx.setComputedSize s.wb p).map _ = _
      unfold Pgx.setComputedSize
      rw [h1]; rfl⟩
  | setSize p size =>
    obtain ⟨wb1, h1, -⟩ := patch_spec s.wb p (uint32 size) (hres p hp)
    exact ⟨{ s with wb := wb1 }, by
      show (Pgx.setSize s.wb p size).map _ = _
      unfold Pgx.setSize
      rw [h1]; rfl⟩

/-- C16. The predicate `1 <= sizeIdx` and `sizeIdx + 4 <= len(buf)` holds for the state
produced by `newWriteBuf` and is preserved by every operation: the appends, `startMsg`,
`closeMsg`, `reserveSize`, and `setComputedSize` and `setSize` whenever they return.
Hence on every state reachable from `newWriteBuf`, with size patches made at positions
returned by `reserveSize`, the predicate holds, `closeMsg` and `startMsg` do not panic,
and every such call returns a reachable state. -/
theorem C16_length_slot_stays_in_bounds :
    (∀ c t, SlotInBounds (newWriteBuf c t)) ∧
    (∀ wb, SlotInBounds wb →
      (∀ op : AppendOp, SlotInBounds (op.run wb)) ∧
      (∀ t, ∃ wb1, startMsg wb t = some wb1 ∧ SlotInBounds wb1) ∧
      (∃ wb1, closeMsg wb = some wb1 ∧ SlotInBounds wb1) ∧
      SlotInBounds (reserveSize wb).1 ∧
      (∀ p wb1, setComputedSize wb p = some wb1 → SlotInBounds wb1) ∧
      (∀ p size wb1, setSize wb p size = some wb1 → SlotInBounds wb1)) ∧
    (∀ s, Reachable s →
      SlotInBounds s.wb ∧
      (∀ p ∈ s.reserved, p + 4 ≤ s.wb.buf.length) ∧
      closeMsg s.wb ≠ none ∧
      (∀ t, startMsg s.wb t ≠ none) ∧
      (∀ call : BuilderCall, call.Permitted s → ∃ s1, call.run s = some s1 ∧ Reachable s1)) := by
  refine ⟨fun c t => ⟨Nat.le_refl 1, by simp [newWriteBuf]⟩, ?_, ?_⟩
  · intro wb h
    refine ⟨fun op => SlotInBounds_append wb op h, ?_, ?_, SlotInBounds_reserveSize wb h,
      fun p wb1 hr => SlotInBounds_setComputedSize wb wb1 p h hr,
      fun p size wb1 hr => SlotInBounds_setSize wb wb1 p size h hr⟩
    · intro t
      obtain ⟨wb1, h1, h2, -⟩ := SlotInBounds_startMsg wb t h
      exact ⟨wb1, h1, h2⟩
    · obtain ⟨wb1, h1, h2, -⟩ := SlotInBounds_closeMsg wb h
      exact ⟨wb1, h1, h2⟩
  · intro s hs
    obtain ⟨hi, hres⟩ := Reachable_invariant s hs
    refine ⟨hi, hres, ?_, ?_, ?_⟩
    · obtain ⟨wb1, h1, -⟩ := SlotInBounds_closeMsg s.wb hi
      rw [h1]; exact Option.some_ne_none _
    · intro t
      obtain ⟨wb1, h1, -⟩ := SlotInBounds_startMsg s.wb t hi
      rw [h1]; exact Option.some_ne_none _
    · intro call hp
      obtain ⟨s1, h1⟩ := permitted_run_some s call hi hres hp
      exact ⟨s1, h1, Reachable.call s s1 call hs hp h1⟩

/-- The statement of C16 at the state `sampleReserved`, reached by three appends and a
`reserveSize`, and at a `setComputedSize` on the reserved position 14. -/
theorem C16_length_slot_stays_in_bounds_witness :
    Reachable sampleReserved ∧
    SlotInBounds sampleReserved.wb ∧
    closeMsg sampleReserved.wb ≠ none ∧
    (BuilderCall.setComputedSize 14).Permitted sampleReserved ∧
    ∃ s1, (BuilderCall.setComputedSize 14).run sampleReserved = some s1 ∧ Reachable s1 := by
  have r0 := Reachable.start sampleConn 81
  have r1 := Reachable.call _ _ (.append (.WriteCString (ascii "ab"))) r0 trivial rfl
  have r2 := Reachable.call _ _ (.append (.WriteInt32 (-1))) r1 trivial rfl
  have r3 := Reachable.call _ _ (.append (.WriteUint16 300)) r2 trivial rfl
  have r4 : Reachable sampleReserved := Reachable.call _ _ .reserveSize r3 trivial rfl
  have hp : (BuilderCall.setComputedSize 14).Permitted sampleReserved := by
    show 14 ∈ sampleReserved.reserved
    decide
  obtain ⟨h1, -, h3, -, h5⟩ := C16_length_slot_stays_in_bounds.2.2 sampleReserved r4
  exact ⟨r4, h1, h3, hp, h5 _ hp⟩

/-! ## The startup encoding can be read back -/

theorem optionBytes_cons (k v : GoString) (o : List (GoString × GoString)) (rest : List Byte) :
    optionBytes ((k, v) :: o) ++ rest = k ++ 0 :: (v ++ 0 :: (optionBytes o ++ rest)) := by
  simp [optionBytes]

theorem readOptionsAux_optionBytes (o : List (GoString × GoString)) (hz : ZeroFree o)
    (hk : NonEmptyKeys o) (trailing : List Byte) (fuel : Nat) (hfuel : o.length + 1 ≤ fuel) :
    readOptionsAux fuel (optionBytes o ++ 0 :: trailing) = some o := by
  induction o generalizing fuel with
  | nil =>
    cases fuel with
    | zero => omega
    | succ fuel => simp [optionBytes, readOptionsAux, readCString]
  | cons kv o ih =>
    cases fuel with
    | zero => omega
    | succ fuel =>
      obtain ⟨k, v⟩ := kv
      have hkv := hz (k, v) (List.mem_cons_self _ _)
      have hne : k ≠ [] := hk (k, v) (List.mem_cons_self _ _)
      have ih1 := ih (fun x hx => hz x (List.mem_cons_of_mem _ hx))
        (fun x hx => hk x (List.mem_cons_of_mem _ hx)) fuel (by simpa using hfuel)
      rw [optionBytes_cons]
      simp only [readOptionsAux, readCString_append _ _ hkv.1, readCString_append _ _ hkv.2,
        if_neg hne, ih1, Option.map_some']

theorem optionsSize_ge_length (o : List (GoString × GoString)) : o.length ≤ optionsSize o := by
  induction o with
  | nil => simp [optionsSize]
  | cons kv o ih =>
    simp only [optionsSize, List.map_cons, List.sum_cons, List.length_cons] at ih ⊢
    omega

theorem readStartupOptions_BytesIn (o : List (GoString × GoString)) (hz : ZeroFree o)
    (hk : NonEmptyKeys o) (out : List Byte) (h : startupMessage.BytesIn o = some out) :
    readStartupOptions out = some o := by
  have hlen := BytesIn_length o out h
  rw [BytesIn_eq] at h
  cases h
  unfold readStartupOptions
  have h8 : (beEncode 4 (9 + optionsSize o) ++ beEncode 4 196608).length = 8 := by
    simp [beEncode_length]
  have hdrop : (beEncode 4 (9 + optionsSize o) ++ beEncode 4 196608 ++ optionBytes o ++ [0]).drop 8 =
      optionBytes o ++ 0 :: [] := by
    rw [List.append_assoc, List.drop_left' h8]
  rw [hdrop, hlen]
  exact readOptionsAux_optionBytes o hz hk [] _ (by have := optionsSize_ge_length o; omega)

theorem cstring_append_inj (a b ra rb : List Byte) (ha : (0 : Byte) ∉ a) (hb : (0 : Byte) ∉ b)
    (h : a ++ 0 :: ra = b ++ 0 :: rb) : a = b ∧ ra = rb := by
  have h1 := readCString_append a ra ha
  rw [h, readCString_append b rb hb] at h1
  cases h1
  exact ⟨rfl, rfl⟩

theorem optionBytes_injective (o1 o2 : List (GoString × GoString)) (h1 : ZeroFree o1)
    (h2 : ZeroFree o2) (h : optionBytes o1 ++ [0] = optionBytes o2 ++ [0]) : o1 = o2 := by
  induction o1 generalizing o2 with
  | nil =>
    cases o2 with
    | nil => rfl
    | cons kv o2 =>
      obtain ⟨k, v⟩ := kv
      rw [optionBytes_cons] at h
      have := cstring_append_inj [] k [] _ (by simp) (h2 (k, v) (List.mem_cons_self _ _)).1
        (by simpa [optionBytes] using h)
      simp at this
  | cons kv o1 ih =>
    obtain ⟨k1, v1⟩ := kv
    cases o2 with
    | nil =>
      rw [optionBytes_cons] at h
      have := cstring_append_inj k1 [] _ [] (h1 (k1, v1) (List.mem_cons_self _ _)).1 (by simp)
        (by simpa [optionBytes] using h)
      simp at this
    | cons kv2 o2 =>
      obtain ⟨k2, v2⟩ := kv2
      rw [optionBytes_cons, optionBytes_cons] at h
      have hz1 := h1 (k1, v1) (List.mem_cons_self _ _)
      have hz2 := h2 (k2, v2) (List.mem_cons_self _ _)
      obtain ⟨hk, hr⟩ := cstring_append_inj _ _ _ _ hz1.1 hz2.1 h
      obtain ⟨hv, hr2⟩ := cstring_append_inj _ _ _ _ hz1.2 hz2.2 hr
      have hk1 : k1 = k2 := hk
      have hv1 : v1 = v2 := hv
      rw [hk1, hv1, ih o2 (fun x hx => h1 x (List.mem_cons_of_mem _ hx))
        (fun x hx => h2 x (List.mem_cons_of_mem _ hx)) hr2]

/-- Two sequences of options without zero bytes that encode to the same bytes are equal,
whether or not a key is empty. -/
theorem BytesIn_injective_of_zeroFree (o1 o2 : List (GoString × GoString)) (h1 : ZeroFree o1)
    (h2 : ZeroFree o2) (out : List Byte) (e1 : startupMessage.BytesIn o1 = some out)
    (e2 : startupMessage.BytesIn o2 = some out) : o1 = o2 := by
  rw [BytesIn_eq] at e1 e2
  have h := e1.trans e2.symm
  have hd := congrArg (List.drop 8) (Option.some.inj h)
  have h8 : ∀ n : Nat, (beEncode 4 n ++ beEncode 4 196608).length = 8 := by
    intro n; simp [beEncode_length]
  have hdrop : ∀ o : List (GoString × GoString),
      (beEncode 4 (9 + optionsSize o) ++ beEncode 4 196608 ++ optionBytes o ++ [0]).drop 8 =
        optionBytes o ++ [0] := by
    intro o
    rw [List.append_assoc, List.drop_left' (h8 _)]
  rw [hdrop, hdrop] at hd
  exact optionBytes_injective o1 o2 h1 h2 hd
/-- C18. The startup encoding is unambiguous: for two sequences of (key, value) pairs, in
iteration order, in which every key is non-empty and no key or value contains a zero
byte, equal encodings force equal sequences, and splitting the bytes after offset 8 at zero
bytes until the empty-key terminator recovers exactly the encoded pairs.  With an empty
key the reading fails: the single option with an empty key is read back as no option at
all, exactly as the encoding of the empty map is. -/
theorem C18_startup_encoding_unambiguous (o1 o2 : List (GoString × GoString))
    (hz1 : ZeroFree o1) (hk1 : NonEmptyKeys o1) (hz2 : ZeroFree o2) (hk2 : NonEmptyKeys o2) :
    (∀ out, startupMessage.BytesIn o1 = some out → startupMessage.BytesIn o2 = some out →
      o1 = o2) ∧
    (∃ out, startupMessage.BytesIn o1 = some out ∧ readStartupOptions out = some o1) ∧
    (∃ out, startupMessage.BytesIn o2 = some out ∧ readStartupOptions out = some o2) ∧
    (ZeroFree emptyKeyOption ∧ ¬ NonEmptyKeys emptyKeyOption ∧
      ∃ out, startupMessage.BytesIn emptyKeyOption = some out ∧
        readStartupOptions out ≠ some emptyKeyOption ∧
        ∃ out0, startupMessage.BytesIn [] = some out0 ∧
          readStartupOptions out = readStartupOptions out0) := by
  refine ⟨fun out e1 e2 => BytesIn_injective_of_zeroFree o1 o2 hz1 hz2 out e1 e2,
    ⟨_, BytesIn_eq o1, readStartupOptions_BytesIn o1 hz1 hk1 _ (BytesIn_eq o1)⟩,
    ⟨_, BytesIn_eq o2, readStartupOptions_BytesIn o2 hz2 hk2 _ (BytesIn_eq o2)⟩, ?_, ?_, ?_⟩
  · unfold ZeroFree; decide
  · unfold NonEmptyKeys; decide
  · exact ⟨[0, 0, 0, 12, 0, 3, 0, 0, 0, 120, 0, 0], by decide, by decide,
      [0, 0, 0, 9, 0, 3, 0, 0, 0], by decide, by decide⟩

/-- The statement of C18 at the options `{user: alice, database: test}`. -/
theorem C18_startup_encoding_unambiguous_witness :
    (ZeroFree userAliceDatabaseTest.options ∧ NonEmptyKeys userAliceDatabaseTest.options) ∧
    readStartupOptions userAliceBytes = some userAliceDatabaseTest.options := by
  have hz : ZeroFree userAliceDatabaseTest.options := by unfold ZeroFree; decide
  have hk : NonEmptyKeys userAliceDatabaseTest.options := by unfold NonEmptyKeys; decide
  obtain ⟨-, ⟨out, h1, h2⟩, -⟩ := C18_startup_encoding_unambiguous
    userAliceDatabaseTest.options userAliceDatabaseTest.options hz hk hz hk
  have ho : out = userAliceBytes := by
    have : startupMessage.BytesIn userAliceDatabaseTest.options = some userAliceBytes := by
      decide
    rw [this] at h1
    exact (Option.some.inj h1).symm
  rw [← ho]
  exact ⟨⟨hz, hk⟩, h2⟩

end Pgx
